import Mathlib

/-!
A shallow embedding of `corun.py`, a cooperative generator-based scheduler.

The embedding follows the source file closely:

* `Task` mirrors the Python `Task` class (`tid`, `target`, `sendval`);
  the opaque generator `target` is modelled by `Body`, with one
  constructor for user-supplied scripts of yields and one for each of the
  built-in generator bodies (`__io_epoll_task`, `__time_poll_task`,
  `wait_for_tasks`).  The `closed` flag records `generator.close()`
  having been called on the target (by `KillTask.handle`); sending into a
  closed generator raises `StopIteration`.
* `SysCall` is the system-call vocabulary (`KillTask`, `WaitForTask`,
  `WaitForTime`, `ReadTask`, `WriteTask`).
* `Sched` holds the scheduler state.  The Python `taskmap` dict maps
  `tid` to the very same `Task` objects that sit in the queues, so the
  registry is modelled by its key set (a `List Nat`); the one place the
  code reads a `Task` out of `taskmap` (`KillTask.handle`, which closes
  the target's generator) is modelled by closing the task wherever it is
  placed.  Dicts keyed by descriptor / deadline / tid are association
  lists.  `Queue` is a FIFO list (head = next to be dequeued).
* Machine time and epoll readiness are external inputs, bundled in `Env`.
  Wall-clock times are rationals.  `epoll.poll` returns the registered
  descriptors that the environment reports ready; the registered set
  always equals the key set of `io_waiting` in the source, so it is not
  tracked separately.
* `dispatchStep` is one iteration of the `while self.running` loop of
  `Scheduler.run`; exceptions escaping the `try` (anything other than
  `StopIteration`) are `Except.error` outcomes, which terminate the loop.
-/

namespace Corun

open List

/-- Values stored in `Task.sendval` (the result delivered at next resume):
Python `None`, or the booleans produced by `KillTask` / `WaitForTask`. -/
inductive Val where
  | none
  | bool (b : Bool)
  deriving DecidableEq, Repr

/-- The `SystemCall` subclasses of `corun.py`, with their payloads. -/
inductive SysCall where
  | killTask (tid : Nat)
  | waitForTask (tid : Nat)
  | waitForTime (seconds : ℚ)
  | readTask (fd : Nat)
  | writeTask (fd : Nat)
  deriving DecidableEq, Repr

/-- One step of a user-supplied generator body: yield a system call,
yield a plain value, or raise an exception other than `StopIteration`. -/
inductive Action where
  | yieldSys (c : SysCall)
  | yieldVal
  | raiseExc
  deriving DecidableEq, Repr

/-- A generator body: a user script (list of the yields it will perform,
completion when exhausted), or one of the scheduler's built-in generators:
`Scheduler.__io_epoll_task`, `Scheduler.__time_poll_task` and
`Scheduler.wait_for_tasks` (the latter carrying the ids it has not yet
waited for; its `event.set()` on completion crosses threads and has no
scheduler-visible effect). -/
inductive Body where
  | script (acts : List Action)
  | ioPoll
  | timePoll
  | waitTasks (tids : List Nat)
  deriving DecidableEq, Repr

/-- The `Task` class: task id, generator body, pending resume value.
`tid` is `self.__hash__()` in the source; CPython's default hash is
id-based, hence distinct among simultaneously live objects, and is
modelled as a fresh monotonically assigned number.  `closed` records that
`target.close()` has been invoked on the generator. -/
structure Task where
  tid : Nat
  body : Body
  sendval : Val
  closed : Bool
  deriving DecidableEq, Repr

/-- The mutable state owned by `Scheduler`. -/
structure Sched where
  /-- `self.ready`, a FIFO queue; head is the next task dequeued. -/
  ready : List Task
  /-- `self.taskmap`, modelled by its key set (the values alias the task
  objects stored in the placements). -/
  taskmap : List Nat
  /-- `self.exit_waiting`: watched tid ↦ tasks parked awaiting its exit. -/
  exit_waiting : List (Nat × List Task)
  /-- `self.io_waiting`: descriptor ↦ the single task awaiting readiness. -/
  io_waiting : List (Nat × Task)
  /-- `self.time_waiting`: wake deadline ↦ tasks parked until then. -/
  time_waiting : List (ℚ × List Task)
  /-- Source of fresh task ids (see `Task.tid`). -/
  nextId : Nat
  deriving DecidableEq, Repr

/-- External inputs to one scheduler step: the current wall-clock time
(`time.time()`) and the descriptors the OS reports ready. -/
structure Env where
  now : ℚ
  firedFds : List Nat
  deriving DecidableEq, Repr

/-- Exceptions, other than `StopIteration`, that can escape the `try`
block of the dispatch loop. -/
inductive PyError where
  /-- `ZeroDivisionError` from `1.0 / self.seconds` in `WaitForTime.handle`. -/
  | zeroDivision
  /-- An uncaught exception raised by a task's body during resume. -/
  | taskExc
  deriving DecidableEq, Repr

/-- Python dict read `d.get(k)` / `k in d` on an association list. -/
def assoc {α β : Type} [DecidableEq α] (k : α) : List (α × β) → Option β
  | [] => Option.none
  | p :: rest => if p.1 = k then some p.2 else assoc k rest

/-- Python dict deletion `d.pop(k)` / `del d[k]` (keys are unique). -/
def eraseKey {α β : Type} [DecidableEq α] (k : α) : List (α × β) → List (α × β)
  | [] => []
  | p :: rest => if p.1 = k then rest else p :: eraseKey k rest

/-- `d.setdefault(k, []).append(t)`: the pattern used by `wait_for_time`
and `wait_for_exit` — append to the existing bucket, else create one. -/
def bucketAdd {α : Type} [DecidableEq α] (k : α) (t : Task) :
    List (α × List Task) → List (α × List Task)
  | [] => [(k, [t])]
  | p :: rest => if p.1 = k then (p.1, p.2 ++ [t]) :: rest else p :: bucketAdd k t rest

/-- Python dict assignment `d[k] = t` on a descriptor map: overwrites an
existing entry (this is exactly what `wait_for_read`/`wait_for_write` do
when a descriptor is already registered — the previous waiter is lost). -/
def mapSet (fd : Nat) (t : Task) : List (Nat × Task) → List (Nat × Task)
  | [] => [(fd, t)]
  | p :: rest => if p.1 = fd then (fd, t) :: rest else p :: mapSet fd t rest

/-- Python `int()` applied to a float: truncation toward zero. -/
def pyTrunc (q : ℚ) : ℤ := if 0 ≤ q then ⌊q⌋ else ⌈q⌉

/-- The wake deadline computed by `WaitForTime.handle`:
`resolution = 1.0 / seconds`; `exptime = time.time() + seconds`;
`exptime = int(exptime * resolution) / resolution`.
Only called with `seconds ≠ 0` (`seconds = 0` raises `ZeroDivisionError`
before this point, see `handleSys`). -/
def wakeTime (now seconds : ℚ) : ℚ :=
  let resolution : ℚ := 1 / seconds
  let exptime : ℚ := now + seconds
  (pyTrunc (exptime * resolution) : ℚ) / resolution

/-- The timeout chosen by one tick of `Scheduler.__io_epoll_task`:
`none` when no poll is issued (`io_waiting` empty), otherwise the timeout
passed to `self.epoll.poll`.  The source tests `not(self.ready)`, where
`self.ready` is a `Queue.Queue` object: the class defines neither
`__nonzero__` nor `__len__`, so the object is always truthy and
`not(self.ready)` is always `False`, regardless of the queue's contents —
`queueBool` models `bool(self.ready)`. -/
def queueBool (_q : List Task) : Bool := true

/-- See `queueBool`: `-1` is the blocking infinite timeout, `0` the
non-blocking poll, `none` means no `epoll.poll` call at all. -/
def ioPollTimeout (s : Sched) : Option Int :=
  if s.io_waiting = [] then Option.none
  else if !queueBool s.ready then some (-1) else some 0

/-- Outcome of `task.run()` (one `target.send(sendval)`). -/
inductive ResumeRes where
  | sys (c : SysCall)
  | plain
  | stop
  deriving DecidableEq, Repr

/-- `task.run()`: drive the generator to its next yield.  Returns the
yielded outcome, the task with its body advanced, and the scheduler state
as mutated by the built-in generator bodies (which read and write
scheduler state directly).  `StopIteration` is the `.stop` outcome; other
exceptions are `.error`.  Sending into a closed generator raises
`StopIteration` immediately. -/
def resume (env : Env) (s : Sched) (t : Task) :
    Except PyError (ResumeRes × Task × Sched) :=
  match t.closed, t.body with
  | true, _ => .ok (.stop, t, s)
  | false, b =>
  match b with
  | .script [] => .ok (.stop, t, s)
  | .script (.yieldSys c :: r) => .ok (.sys c, { t with body := .script r }, s)
  | .script (.yieldVal :: r) => .ok (.plain, { t with body := .script r }, s)
  | .script (.raiseExc :: _) => .error .taskExc
  | .ioPoll =>
      match ioPollTimeout s with
      | Option.none => .ok (.plain, t, s)
      | some _ =>
          let fired := s.io_waiting.filter (fun p => decide (p.1 ∈ env.firedFds))
          let kept := s.io_waiting.filter (fun p => !decide (p.1 ∈ env.firedFds))
          .ok (.plain, t, { s with
            ready := s.ready ++ fired.map Prod.snd,
            io_waiting := kept })
  | .timePoll =>
      let expired := s.time_waiting.filter (fun p => decide (p.1 ≤ env.now))
      let kept := s.time_waiting.filter (fun p => !decide (p.1 ≤ env.now))
      .ok (.plain, t, { s with
        ready := s.ready ++ (expired.map Prod.snd).flatten,
        time_waiting := kept })
  | .waitTasks ids =>
      match ids.dropWhile (fun i => decide (i ∉ s.taskmap)) with
      | [] => .ok (.stop, t, s)
      | i :: rest => .ok (.sys (.waitForTask i), { t with body := .waitTasks rest }, s)

/-- `KillTask.handle`'s `dtask.target.close()`: the `Task` objects held in
`taskmap` alias the placed objects, so closing the target is modelled by
setting `closed` on every placed task with the given id (the executing
caller is handled separately at the call site). -/
def closeTask (wid : Nat) (t : Task) : Task :=
  if t.tid = wid then { t with closed := true } else t

/-- Close the target's generator wherever the target is placed. -/
def closeTid (wid : Nat) (s : Sched) : Sched :=
  { s with
    ready := s.ready.map (closeTask wid),
    io_waiting := s.io_waiting.map (fun p => (p.1, closeTask wid p.2)),
    time_waiting := s.time_waiting.map (fun p => (p.1, p.2.map (closeTask wid))) }

/-- The `SystemCall.handle` implementations, invoked by the dispatch loop
with the scheduler and the task that yielded the call (`t`, already
removed from the ready queue and not re-queued unless a handler does so).

* `killTask` — `KillTask.handle`: close the target's generator if the id
  is registered, answer `True`/`False`, re-queue the caller.
* `waitForTask` — `WaitForTask.handle` + `Scheduler.wait_for_exit`: if
  the target is registered, pop the *caller* from the registry and append
  it to `exit_waiting[target]` (parked); else answer `False` and
  re-queue.
* `waitForTime` — `WaitForTime.handle` + `Scheduler.wait_for_time`:
  `1.0 / seconds` raises `ZeroDivisionError` when `seconds = 0`;
  otherwise park the caller in the bucket of `wakeTime`.
* `readTask`/`writeTask` — `ReadTask.handle`/`WriteTask.handle` +
  `Scheduler.wait_for_read`/`wait_for_write`: `io_waiting[fd] = task`
  (overwriting any previous waiter on `fd`).
-/
def handleSys (env : Env) (c : SysCall) (s : Sched) (t : Task) :
    Except PyError Sched :=
  match c with
  | .killTask wid =>
      if wid ∈ s.taskmap then
        let s2 := closeTid wid s
        let t2 := closeTask wid t
        .ok { s2 with ready := s2.ready ++ [{ t2 with sendval := .bool true }] }
      else
        .ok { s with ready := s.ready ++ [{ t with sendval := .bool false }] }
  | .waitForTask wid =>
      if wid ∈ s.taskmap then
        .ok { s with
          taskmap := s.taskmap.erase t.tid,
          exit_waiting := bucketAdd wid { t with sendval := .bool true } s.exit_waiting }
      else
        .ok { s with ready := s.ready ++ [{ t with sendval := .bool false }] }
  | .waitForTime seconds =>
      if seconds = 0 then .error .zeroDivision
      else .ok { s with
        time_waiting := bucketAdd (wakeTime env.now seconds) t s.time_waiting }
  | .readTask fd => .ok { s with io_waiting := mapSet fd t s.io_waiting }
  | .writeTask fd => .ok { s with io_waiting := mapSet fd t s.io_waiting }

/-- The completion block of `Scheduler.run` (after `del taskmap[tid]`):
`if task.tid in self.exit_waiting`, pop the waiter list and re-queue
every waiter, re-inserting each into the registry. -/
def notifyExit (tid : Nat) (s : Sched) : Sched :=
  match assoc tid s.exit_waiting with
  | some others =>
      { s with
        exit_waiting := eraseKey tid s.exit_waiting,
        taskmap := s.taskmap ++ others.map Task.tid,
        ready := s.ready ++ others }
  | Option.none => s

/-- One iteration of the `while self.running` loop of `Scheduler.run`:
dequeue, resume, then dispatch on the outcome.  `Queue.get()` on an empty
queue blocks; modelled as a stuttering step.  Exceptions other than
`StopIteration` escape the loop (`.error`). -/
def dispatchStep (env : Env) (s : Sched) : Except PyError Sched :=
  match s.ready with
  | [] => .ok s
  | t :: rest =>
    match resume env { s with ready := rest } t with
    | .error e => .error e
    | .ok (.plain, t2, s2) => .ok { s2 with ready := s2.ready ++ [t2] }
    | .ok (.stop, _, s2) =>
        .ok (notifyExit t.tid { s2 with taskmap := s2.taskmap.erase t.tid })
    | .ok (.sys c, t2, s2) => handleSys env c s2 t2

/-- `Scheduler.new`: wrap the body in a fresh `Task`, insert it into the
registry and the ready queue, return its id. -/
def new (s : Sched) (b : Body) : Nat × Sched :=
  (s.nextId,
   { s with
     taskmap := s.taskmap ++ [s.nextId],
     ready := s.ready ++ [{ tid := s.nextId, body := b, sendval := .none, closed := false }],
     nextId := s.nextId + 1 })

/-- The scheduler state as constructed by `Scheduler.__init__`. -/
def emptySched : Sched :=
  { ready := [], taskmap := [], exit_waiting := [], io_waiting := [],
    time_waiting := [], nextId := 0 }

/-- The state right after `Scheduler.run` submits the two background
tasks (`__io_epoll_task` first, `__time_poll_task` second). -/
def initSched : Sched := (new (new emptySched .ioPoll).2 .timePoll).2

/-- An event of the scheduler's lifetime: one dispatch-loop iteration
under the given environment, or a `Scheduler.new` submission (which may
arrive from another thread between loop iterations). -/
inductive Input where
  | step (e : Env)
  | submit (b : Body)

/-- Run a sequence of inputs; an uncaught exception aborts the loop. -/
def runInputs (s : Sched) : List Input → Except PyError Sched
  | [] => .ok s
  | .step e :: rest =>
      match dispatchStep e s with
      | .error err => .error err
      | .ok s2 => runInputs s2 rest
  | .submit b :: rest => runInputs (new s b).2 rest

/-- The tasks parked in the reactor waiting set. -/
def ioTasks (s : Sched) : List Task := s.io_waiting.map Prod.snd

/-- The tasks parked in the timer queue. -/
def timeTasks (s : Sched) : List Task := (s.time_waiting.map Prod.snd).flatten

/-- The tasks parked in exit-waiter lists. -/
def exitTasks (s : Sched) : List Task := (s.exit_waiting.map Prod.snd).flatten

/-- The tasks in the three placements whose members the source keeps in
the registry: ready queue, reactor waiting set, timer queue. -/
def liveTasks (s : Sched) : List Task := s.ready ++ ioTasks s ++ timeTasks s

/-- Every placed task (exit-waiters are placed but not registered). -/
def placedTasks (s : Sched) : List Task := liveTasks s ++ exitTasks s

/-- Ids of registered placements. -/
def liveIds (s : Sched) : List Nat := (liveTasks s).map Task.tid

/-- Ids of exit-waiter placements. -/
def exitIds (s : Sched) : List Nat := (exitTasks s).map Task.tid

/-- Ids of all placements. -/
def placedIds (s : Sched) : List Nat := liveIds s ++ exitIds s

/-- How many placements hold a task with the given id. -/
def placementCount (s : Sched) (i : Nat) : Nat := (placedIds s).count i

/-- The scheduler's structural invariant between dispatch steps:
no task id occurs in two placements; the registry is duplicate-free and
holds exactly the ids placed in the ready queue, the reactor waiting set
and the timer queue (exit-waiters are deregistered while parked); all
placed ids are below the fresh-id counter. -/
def InvP (s : Sched) : Prop :=
  (placedIds s).Nodup ∧
  s.taskmap.Nodup ∧
  (∀ i ∈ s.taskmap, i ∈ liveIds s) ∧
  (∀ i ∈ liveIds s, i ∈ s.taskmap) ∧
  (∀ i ∈ placedIds s, i < s.nextId)

instance (s : Sched) : Decidable (InvP s) := by
  unfold InvP; infer_instance

/-- The system call about to be dispatched (if the head of the ready
queue resumes to one). -/
def stepSyscall (env : Env) (s : Sched) : Option SysCall :=
  match s.ready with
  | [] => Option.none
  | t :: rest =>
    match resume env { s with ready := rest } t with
    | .ok (.sys c, _, _) => some c
    | _ => Option.none

/-- No `AwaitReadable`/`AwaitWritable` about to be dispatched targets a
descriptor that already has a waiter (the source silently overwrites the
previous waiter in that case). -/
def noFdClash (env : Env) (s : Sched) : Bool :=
  match stepSyscall env s with
  | some (.readTask fd) => (assoc fd s.io_waiting).isNone
  | some (.writeTask fd) => (assoc fd s.io_waiting).isNone
  | _ => true

/-- A task with id `x` permanently parked on itself after a self-join
(`WaitForTask` with its own id): it is out of the registry, no registered
placement holds a task with its id, it sits in the exit-waiter bucket
keyed by its own id, no other bucket holds a task with its id, and its id
is below the fresh-id counter (so no later task reuses it). -/
def SelfParked (s : Sched) (x : Nat) : Prop :=
  x ∉ s.taskmap ∧
  (∀ v ∈ liveTasks s, v.tid ≠ x) ∧
  x ∈ (((assoc x s.exit_waiting).getD []).map Task.tid) ∧
  (∀ p ∈ s.exit_waiting, p.1 ≠ x → ∀ v ∈ p.2, v.tid ≠ x) ∧
  x < s.nextId

instance (s : Sched) (x : Nat) : Decidable (SelfParked s x) := by
  unfold SelfParked
  infer_instance

/-! ### Concrete scheduler states used to evaluate the embedding -/

/-- An environment with the given clock and no descriptors ready. -/
def envAt (q : ℚ) : Env := { now := q, firedFds := [] }

/-- Two tasks, both about to wait for readability of descriptor 5. -/
def c1bad : Sched :=
  { ready := [{ tid := 10, body := .script [.yieldSys (.readTask 5)],
                sendval := .none, closed := false },
              { tid := 11, body := .script [.yieldSys (.readTask 5)],
                sendval := .none, closed := false }],
    taskmap := [10, 11], exit_waiting := [], io_waiting := [],
    time_waiting := [], nextId := 12 }

/-- One task about to complete. -/
def c1w : Sched :=
  { ready := [{ tid := 3, body := .script [], sendval := .none, closed := false }],
    taskmap := [3], exit_waiting := [], io_waiting := [], time_waiting := [],
    nextId := 4 }

/-- `c1w` after one dispatch step (the task completed). -/
def c1wAfter : Sched :=
  { ready := [], taskmap := [], exit_waiting := [], io_waiting := [],
    time_waiting := [], nextId := 4 }

/-- Booted scheduler plus one user task whose body raises an exception. -/
def c2state : Sched := (new initSched (.script [.raiseExc])).2

/-- Booted scheduler plus a user task doing a zero-duration sleep and the
internal `wait_for_tasks` task submitted by `joinall` for it. -/
def c5state : Sched :=
  (new (new initSched (.script [.yieldSys (.waitForTime 0)])).2 (.waitTasks [2])).2

/-- A scheduler whose reactor waiting set is non-empty while the ready
queue is empty. -/
def c6state : Sched :=
  { ready := [], taskmap := [7],
    exit_waiting := [],
    io_waiting := [(5, { tid := 7, body := .script [], sendval := .none,
                         closed := false })],
    time_waiting := [], nextId := 8 }

/-- Four tasks: 0 yields a plain value; 1 joins 0; 2 parks on a read
wait; 3 kills 2. -/
def c7trace : Sched :=
  (new (new (new (new emptySched
    (.script [.yieldVal])).2
    (.script [.yieldSys (.waitForTask 0)])).2
    (.script [.yieldSys (.readTask 5)])).2
    (.script [.yieldSys (.killTask 2)])).2

/-- One running task and one task just completing. -/
def c7w : Sched :=
  { ready := [{ tid := 3, body := .script [], sendval := .none, closed := false },
              { tid := 4, body := .script [.yieldVal], sendval := .none,
                closed := false }],
    taskmap := [3, 4], exit_waiting := [], io_waiting := [], time_waiting := [],
    nextId := 5 }

/-- `c7w` after one dispatch step (task 3 completed). -/
def c7wAfter : Sched :=
  { ready := [{ tid := 4, body := .script [.yieldVal], sendval := .none,
                closed := false }],
    taskmap := [4], exit_waiting := [], io_waiting := [], time_waiting := [],
    nextId := 5 }

/-- A waiter about to issue `WaitForTask 9` on a live target. -/
def c4w : Sched :=
  { ready := [{ tid := 8, body := .script [.yieldSys (.waitForTask 9)],
                sendval := .none, closed := false },
              { tid := 9, body := .script [.yieldVal], sendval := .none,
                closed := false }],
    taskmap := [8, 9], exit_waiting := [], io_waiting := [], time_waiting := [],
    nextId := 10 }

/-- A completing task with one parked exit-waiter. -/
def c8w : Sched :=
  { ready := [{ tid := 2, body := .script [], sendval := .none, closed := false }],
    taskmap := [2],
    exit_waiting := [(2, [{ tid := 6, body := .script [], sendval := .bool true,
                            closed := false }])],
    io_waiting := [], time_waiting := [], nextId := 7 }

/-- A task about to kill task 4, which is parked in the timer queue. -/
def c9w : Sched :=
  { ready := [{ tid := 3, body := .script [.yieldSys (.killTask 4)],
                sendval := .none, closed := false }],
    taskmap := [3, 4], exit_waiting := [], io_waiting := [],
    time_waiting := [(2, [{ tid := 4, body := .script [.yieldVal],
                            sendval := .none, closed := false }])],
    nextId := 5 }

/-- A task about to join itself. -/
def c10w : Sched :=
  { ready := [{ tid := 0, body := .script [.yieldSys (.waitForTask 0)],
                sendval := .none, closed := false }],
    taskmap := [0], exit_waiting := [], io_waiting := [], time_waiting := [],
    nextId := 1 }

/-! ### Association-list lemmas -/

theorem assoc_some_split {α β : Type} [DecidableEq α] {k : α} {b : β}
    {l : List (α × β)} (h : assoc k l = some b) :
    ∃ pre post, l = pre ++ (k, b) :: post ∧ eraseKey k l = pre ++ post := by
  induction l with
  | nil => simp [assoc] at h
  | cons p rest ih =>
      by_cases hk : p.1 = k
      · refine ⟨[], rest, ?_, ?_⟩
        · simp [assoc, hk] at h
          simp [← h, ← hk]
        · simp [eraseKey, hk]
      · simp only [assoc, hk, if_neg] at h
        obtain ⟨pre, post, hl, he⟩ := ih h
        exact ⟨p :: pre, post, by simp [hl], by simp [eraseKey, hk, he]⟩

theorem eraseKey_of_assoc_none {α β : Type} [DecidableEq α] {k : α}
    {l : List (α × β)} (h : assoc k l = Option.none) : eraseKey k l = l := by
  induction l with
  | nil => rfl
  | cons p rest ih =>
      by_cases hk : p.1 = k
      · simp [assoc, hk] at h
      · simp only [assoc, hk, if_neg] at h
        simp [eraseKey, hk, ih h]

theorem assoc_bucketAdd_self {α : Type} [DecidableEq α] (k : α) (t : Task)
    (l : List (α × List Task)) :
    assoc k (bucketAdd k t l) = some ((assoc k l).getD [] ++ [t]) := by
  induction l with
  | nil => simp [bucketAdd, assoc]
  | cons p rest ih =>
      by_cases hk : p.1 = k
      · simp [bucketAdd, assoc, hk]
      · simp [bucketAdd, assoc, hk, ih]

theorem assoc_bucketAdd_ne {α : Type} [DecidableEq α] {k k' : α} (hne : k' ≠ k)
    (t : Task) (l : List (α × List Task)) :
    assoc k' (bucketAdd k t l) = assoc k' l := by
  have hkk : ¬ k = k' := fun h => hne h.symm
  induction l with
  | nil => simp only [bucketAdd, assoc, if_neg hkk]
  | cons p rest ih =>
      obtain ⟨a, b⟩ := p
      simp only [bucketAdd]
      by_cases hk : a = k
      · rw [if_pos hk]
        have ha : ¬ a = k' := by rw [hk]; exact hkk
        simp only [assoc, if_neg ha]
      · rw [if_neg hk]
        by_cases hk' : a = k'
        · simp only [assoc, if_pos hk']
        · simp only [assoc, if_neg hk', ih]

theorem assoc_eraseKey_ne {α β : Type} [DecidableEq α] {k k' : α} (hne : k' ≠ k)
    (l : List (α × β)) : assoc k' (eraseKey k l) = assoc k' l := by
  have hkk : ¬ k = k' := fun h => hne h.symm
  induction l with
  | nil => rfl
  | cons p rest ih =>
      obtain ⟨a, b⟩ := p
      simp only [eraseKey]
      by_cases hk : a = k
      · rw [if_pos hk]
        have ha : ¬ a = k' := by rw [hk]; exact hkk
        simp only [assoc, if_neg ha]
      · rw [if_neg hk]
        by_cases hk' : a = k'
        · simp only [assoc, if_pos hk']
        · simp only [assoc, if_neg hk', ih]

theorem bucketAdd_flatten_perm {α : Type} [DecidableEq α] (k : α) (t : Task)
    (l : List (α × List Task)) :
    ((bucketAdd k t l).map Prod.snd).flatten ~ (l.map Prod.snd).flatten ++ [t] := by
  induction l with
  | nil => simp [bucketAdd]
  | cons p rest ih =>
      simp only [bucketAdd]
      by_cases hk : p.1 = k
      · rw [if_pos hk]
        simp only [List.map_cons, List.flatten_cons]
        calc p.2 ++ [t] ++ (List.map Prod.snd rest).flatten
            = p.2 ++ (t :: (List.map Prod.snd rest).flatten) := by simp
          _ ~ t :: (p.2 ++ (List.map Prod.snd rest).flatten) := List.perm_middle
          _ ~ (p.2 ++ (List.map Prod.snd rest).flatten) ++ [t] :=
              @List.perm_append_comm _ [t] _
      · rw [if_neg hk]
        simp only [List.map_cons, List.flatten_cons]
        calc p.2 ++ ((bucketAdd k t rest).map Prod.snd).flatten
            ~ p.2 ++ ((rest.map Prod.snd).flatten ++ [t]) := List.Perm.append_left _ ih
          _ = (p.2 ++ (rest.map Prod.snd).flatten) ++ [t] := by rw [List.append_assoc]

theorem mapSet_of_assoc_none {fd : Nat} {l : List (Nat × Task)} (t : Task)
    (h : assoc fd l = Option.none) : mapSet fd t l = l ++ [(fd, t)] := by
  induction l with
  | nil => rfl
  | cons p rest ih =>
      by_cases hk : p.1 = fd
      · simp [assoc, hk] at h
      · simp only [assoc, hk, if_neg] at h
        simp [mapSet, hk, ih h]

theorem mapSet_snd_mem {fd : Nat} {t u : Task} {l : List (Nat × Task)}
    (h : u ∈ (mapSet fd t l).map Prod.snd) : u ∈ l.map Prod.snd ∨ u = t := by
  induction l with
  | nil => simp [mapSet] at h; exact Or.inr h
  | cons p rest ih =>
      by_cases hk : p.1 = fd
      · simp [mapSet, hk] at h
        rcases h with h | h
        · exact Or.inr h
        · exact Or.inl (by simp [h])
      · simp [mapSet, hk] at h
        rcases h with h | h
        · exact Or.inl (by simp [h])
        · rcases ih (by simpa using h) with h' | h'
          · exact Or.inl (by simp at h' ⊢; exact Or.inr h')
          · exact Or.inr h'

/-! ### Characterizations of `resume` -/

theorem closeTask_tid (w : Nat) (t : Task) : (closeTask w t).tid = t.tid := by
  unfold closeTask; split <;> rfl

theorem resume_sys {env : Env} {s : Sched} {t t2 : Task} {c : SysCall} {s2 : Sched}
    (h : resume env s t = .ok (.sys c, t2, s2)) :
    s2 = s ∧ t2.tid = t.tid ∧ t2.closed = t.closed := by
  obtain ⟨i, b, v, cl⟩ := t
  cases cl with
  | true => simp [resume] at h
  | false =>
    cases b with
    | script acts =>
        cases acts with
        | nil => simp [resume] at h
        | cons a r =>
            cases a with
            | yieldSys c2 =>
                simp only [resume, if_neg] at h
                simp at h
                obtain ⟨-, h2, h3⟩ := h
                exact ⟨h3.symm, by simp [← h2], by simp [← h2]⟩
            | yieldVal => simp [resume] at h
            | raiseExc => simp [resume] at h
    | ioPoll =>
        cases hio : ioPollTimeout s <;>
          · simp only [resume] at h
            rw [hio] at h
            simp at h
    | timePoll => simp [resume] at h
    | waitTasks ids =>
        cases hd : ids.dropWhile (fun i => decide (i ∉ s.taskmap)) with
        | nil =>
            simp only [resume] at h
            rw [hd] at h
            simp at h
        | cons j rest =>
            simp only [resume] at h
            rw [hd] at h
            simp at h
            obtain ⟨-, h2, h3⟩ := h
            exact ⟨h3.symm, by simp [← h2], by simp [← h2]⟩

theorem resume_stop {env : Env} {s : Sched} {t t2 : Task} {s2 : Sched}
    (h : resume env s t = .ok (.stop, t2, s2)) : s2 = s := by
  obtain ⟨i, b, v, cl⟩ := t
  cases cl with
  | true => simp [resume] at h; exact h.2.symm
  | false =>
    cases b with
    | script acts =>
        cases acts with
        | nil => simp [resume] at h; exact h.2.symm
        | cons a r => cases a <;> simp [resume] at h
    | ioPoll =>
        cases hio : ioPollTimeout s <;>
          · simp only [resume] at h
            rw [hio] at h
            simp at h
    | timePoll => simp [resume] at h
    | waitTasks ids =>
        cases hd : ids.dropWhile (fun i => decide (i ∉ s.taskmap)) with
        | nil =>
            simp only [resume] at h
            rw [hd] at h
            simp at h
            exact h.2.symm
        | cons j rest =>
            simp only [resume] at h
            rw [hd] at h
            simp at h

theorem resume_plain {env : Env} {s : Sched} {t t2 : Task} {s2 : Sched}
    (h : resume env s t = .ok (.plain, t2, s2)) :
    t2.tid = t.tid ∧ t2.closed = t.closed ∧ s2.taskmap = s.taskmap ∧
      s2.exit_waiting = s.exit_waiting ∧ s2.nextId = s.nextId ∧
      liveTasks s2 ~ liveTasks s := by
  obtain ⟨i, b, v, cl⟩ := t
  cases cl with
  | true => simp [resume] at h
  | false =>
    cases b with
    | script acts =>
        cases acts with
        | nil => simp [resume] at h
        | cons a r =>
            cases a with
            | yieldSys c2 => simp [resume] at h
            | yieldVal =>
                simp [resume] at h
                obtain ⟨h2, h3⟩ := h
                subst h3
                simp [← h2]
            | raiseExc => simp [resume] at h
    | ioPoll =>
        cases hio : ioPollTimeout s with
        | none =>
            simp only [resume] at h
            rw [hio] at h
            simp at h
            obtain ⟨h2, h3⟩ := h
            subst h3
            simp [← h2]
        | some tmo =>
            simp only [resume] at h
            rw [hio] at h
            simp at h
            obtain ⟨h2, h3⟩ := h
            subst h3
            refine ⟨by simp [← h2], by simp [← h2], rfl, rfl, rfl, ?_⟩
            have hio2 : (s.io_waiting.filter (fun p => decide (p.1 ∈ env.firedFds))).map Prod.snd ++
                (s.io_waiting.filter (fun p => !decide (p.1 ∈ env.firedFds))).map Prod.snd ~
                ioTasks s := by
              rw [← List.map_append]
              exact (List.filter_append_perm _ s.io_waiting).map Prod.snd
            simp only [liveTasks, ioTasks, timeTasks]
            calc s.ready ++ (s.io_waiting.filter (fun p => decide (p.1 ∈ env.firedFds))).map Prod.snd ++
                  (s.io_waiting.filter (fun p => !decide (p.1 ∈ env.firedFds))).map Prod.snd ++
                  (s.time_waiting.map Prod.snd).flatten
                = s.ready ++ ((s.io_waiting.filter (fun p => decide (p.1 ∈ env.firedFds))).map Prod.snd ++
                  (s.io_waiting.filter (fun p => !decide (p.1 ∈ env.firedFds))).map Prod.snd) ++
                  (s.time_waiting.map Prod.snd).flatten := by simp [List.append_assoc]
              _ ~ s.ready ++ (s.io_waiting.map Prod.snd) ++
                  (s.time_waiting.map Prod.snd).flatten :=
                  ((hio2.append_left s.ready).append_right _)
    | timePoll =>
        simp [resume] at h
        obtain ⟨h2, h3⟩ := h
        subst h3
        refine ⟨by simp [← h2], by simp [← h2], rfl, rfl, rfl, ?_⟩
        have ht : ((s.time_waiting.filter (fun p => decide (p.1 ≤ env.now))).map Prod.snd).flatten ++
            ((s.time_waiting.filter (fun p => !decide (p.1 ≤ env.now))).map Prod.snd).flatten ~
            timeTasks s := by
          rw [← List.flatten_append, ← List.map_append]
          exact ((List.filter_append_perm _ s.time_waiting).map Prod.snd).flatten
        simp only [liveTasks, ioTasks, timeTasks]
        calc s.ready ++ ((s.time_waiting.filter (fun p => decide (p.1 ≤ env.now))).map Prod.snd).flatten ++
              s.io_waiting.map Prod.snd ++
              ((s.time_waiting.filter (fun p => !decide (p.1 ≤ env.now))).map Prod.snd).flatten
            = s.ready ++ (((s.time_waiting.filter (fun p => decide (p.1 ≤ env.now))).map Prod.snd).flatten ++
              (s.io_waiting.map Prod.snd ++
               ((s.time_waiting.filter (fun p => !decide (p.1 ≤ env.now))).map Prod.snd).flatten)) := by
              simp [List.append_assoc]
          _ ~ s.ready ++ (((s.time_waiting.filter (fun p => decide (p.1 ≤ env.now))).map Prod.snd).flatten ++
              (((s.time_waiting.filter (fun p => !decide (p.1 ≤ env.now))).map Prod.snd).flatten ++
               s.io_waiting.map Prod.snd)) :=
              ((List.perm_append_comm).append_left _).append_left _
          _ = s.ready ++ ((((s.time_waiting.filter (fun p => decide (p.1 ≤ env.now))).map Prod.snd).flatten ++
              ((s.time_waiting.filter (fun p => !decide (p.1 ≤ env.now))).map Prod.snd).flatten) ++
               s.io_waiting.map Prod.snd) := by simp [List.append_assoc]
          _ ~ s.ready ++ (timeTasks s ++ s.io_waiting.map Prod.snd) :=
              ((ht.append_right _).append_left _)
          _ ~ s.ready ++ (s.io_waiting.map Prod.snd ++ timeTasks s) :=
              (List.perm_append_comm.append_left _)
          _ = s.ready ++ s.io_waiting.map Prod.snd ++ timeTasks s := by
              simp [List.append_assoc, timeTasks]
    | waitTasks ids =>
        cases hd : ids.dropWhile (fun i => decide (i ∉ s.taskmap)) with
        | nil =>
            simp only [resume] at h
            rw [hd] at h
            simp at h
        | cons j rest =>
            simp only [resume] at h
            rw [hd] at h
            simp at h

/-! ### Case analysis of one dispatch step -/

theorem dispatchStep_cases {env : Env} {s s' : Sched}
    (h : dispatchStep env s = .ok s') :
    (s.ready = [] ∧ s' = s) ∨
    (∃ t rest t2 s2, s.ready = t :: rest ∧
      resume env { s with ready := rest } t = .ok (.plain, t2, s2) ∧
      s' = { s2 with ready := s2.ready ++ [t2] }) ∨
    (∃ t rest t2 s2, s.ready = t :: rest ∧
      resume env { s with ready := rest } t = .ok (.stop, t2, s2) ∧
      s' = notifyExit t.tid { s2 with taskmap := s2.taskmap.erase t.tid }) ∨
    (∃ t rest t2 s2 c, s.ready = t :: rest ∧
      resume env { s with ready := rest } t = .ok (.sys c, t2, s2) ∧
      handleSys env c s2 t2 = .ok s') := by
  cases hr : s.ready with
  | nil =>
      left
      unfold dispatchStep at h
      rw [hr] at h
      simp at h
      exact ⟨rfl, h.symm⟩
  | cons t rest =>
      unfold dispatchStep at h
      rw [hr] at h
      dsimp only at h
      cases hres : resume env { s with ready := rest } t with
      | error e => rw [hres] at h; simp at h
      | ok out =>
          obtain ⟨res, t2, s2⟩ := out
          rw [hres] at h
          cases res with
          | plain =>
              right; left
              refine ⟨t, rest, t2, s2, rfl, hres, ?_⟩
              simpa using h.symm
          | stop =>
              right; right; left
              refine ⟨t, rest, t2, s2, rfl, hres, ?_⟩
              simpa using h.symm
          | sys c =>
              right; right; right
              exact ⟨t, rest, t2, s2, c, rfl, hres, h⟩

theorem stepSyscall_eq {env : Env} {s : Sched} {t : Task} {rest : List Task}
    {res : ResumeRes × Task × Sched}
    (hr : s.ready = t :: rest)
    (hres : resume env { s with ready := rest } t = .ok res) :
    stepSyscall env s = (match res.1 with
      | .sys c => some c
      | _ => Option.none) := by
  unfold stepSyscall
  rw [hr]
  dsimp only
  rw [hres]
  obtain ⟨r, t2, s2⟩ := res
  cases r <;> rfl

/-! ### The placement invariant and its transfer lemmas -/

theorem placedIds_def (s : Sched) : placedIds s = liveIds s ++ exitIds s := by
  simp [placedIds, liveIds, exitIds, placedTasks, liveTasks, exitTasks]

theorem InvP_of_perm {s u : Sched} (hInv : InvP u)
    (hlive : liveIds s ~ liveIds u) (hexit : exitIds s ~ exitIds u)
    (htm : s.taskmap = u.taskmap) (hn : u.nextId ≤ s.nextId) : InvP s := by
  obtain ⟨hnd, htnd, h1, h2, h3⟩ := hInv
  have hp : placedIds s ~ placedIds u := by
    rw [placedIds_def, placedIds_def]
    exact hlive.append hexit
  refine ⟨hp.symm.nodup hnd, htm ▸ htnd, ?_, ?_, ?_⟩
  · intro i hi
    exact hlive.mem_iff.mpr (h1 i (htm ▸ hi))
  · intro i hi
    exact htm ▸ h2 i (hlive.mem_iff.mp hi)
  · intro i hi
    exact lt_of_lt_of_le (h3 i (hp.mem_iff.mp hi)) hn

theorem liveIds_closeTid (w : Nat) (s : Sched) :
    liveIds (closeTid w s) = liveIds s := by
  have h1 : (Task.tid ∘ closeTask w) = Task.tid := funext (closeTask_tid w)
  have h2 : (Task.tid ∘ Prod.snd ∘ fun p : Nat × Task => (p.1, closeTask w p.2)) =
      Task.tid ∘ Prod.snd := by
    funext p
    exact closeTask_tid w p.2
  have h3 : ((List.map Task.tid) ∘ Prod.snd ∘ fun p : ℚ × List Task =>
      (p.1, List.map (closeTask w) p.2)) = (List.map Task.tid) ∘ Prod.snd := by
    funext p
    simp only [Function.comp_apply]
    rw [List.map_map, h1]
  simp [liveIds, liveTasks, closeTid, ioTasks, timeTasks, List.map_map,
    Function.comp_def, closeTask_tid, h1, h2, h3]

theorem exitIds_closeTid (w : Nat) (s : Sched) :
    exitIds (closeTid w s) = exitIds s := by
  simp [exitIds, exitTasks, closeTid]

theorem perm_of_multiset {α : Type} {l1 l2 : List α}
    (h : (l1 : Multiset α) = l2) : l1 ~ l2 :=
  Multiset.coe_eq_coe.mp h

theorem multiset_of_perm {α : Type} {l1 l2 : List α}
    (h : l1 ~ l2) : (l1 : Multiset α) = l2 :=
  Multiset.coe_eq_coe.mpr h

theorem liveTasks_cons {s : Sched} {t : Task} {rest : List Task}
    (hr : s.ready = t :: rest) :
    liveTasks s = t :: liveTasks { s with ready := rest } := by
  simp [liveTasks, ioTasks, timeTasks, hr]

theorem liveIds_cons {s : Sched} {t : Task} {rest : List Task}
    (hr : s.ready = t :: rest) :
    liveIds s = t.tid :: liveIds { s with ready := rest } := by
  simp [liveIds, liveTasks_cons hr]

theorem placedIds_cons {s : Sched} {t : Task} {rest : List Task}
    (hr : s.ready = t :: rest) :
    placedIds s = t.tid :: placedIds { s with ready := rest } := by
  rw [placedIds_def, placedIds_def, liveIds_cons hr]
  rfl

theorem liveIds_requeue (u : Sched) (x : Task) :
    liveIds { u with ready := u.ready ++ [x] } ~ x.tid :: liveIds u := by
  apply perm_of_multiset
  simp only [liveIds, liveTasks, ioTasks, timeTasks, List.map_append, List.map_cons,
    List.map_nil, ← Multiset.coe_add, ← Multiset.cons_coe, ← Multiset.singleton_add,
    Multiset.coe_singleton]
  abel

theorem liveIds_park_time (u : Sched) (k : ℚ) (x : Task) :
    liveIds { u with time_waiting := bucketAdd k x u.time_waiting } ~
      x.tid :: liveIds u := by
  apply perm_of_multiset
  have hb := multiset_of_perm ((bucketAdd_flatten_perm k x u.time_waiting).map Task.tid)
  simp only [List.map_append, List.map_cons, List.map_nil] at hb
  simp only [liveIds, liveTasks, ioTasks, timeTasks, List.map_append, List.map_cons,
    List.map_nil, ← Multiset.coe_add, ← Multiset.cons_coe, ← Multiset.singleton_add,
    Multiset.coe_singleton] at hb ⊢
  rw [hb]
  abel

theorem liveIds_park_io (u : Sched) (fd : Nat) (x : Task)
    (hnone : assoc fd u.io_waiting = Option.none) :
    liveIds { u with io_waiting := mapSet fd x u.io_waiting } ~
      x.tid :: liveIds u := by
  apply perm_of_multiset
  rw [mapSet_of_assoc_none x hnone]
  simp only [liveIds, liveTasks, ioTasks, timeTasks, List.map_append, List.map_cons,
    List.map_nil, ← Multiset.coe_add, ← Multiset.cons_coe, ← Multiset.singleton_add,
    Multiset.coe_singleton]
  abel

theorem exitIds_park_exit (u : Sched) (k : Nat) (x : Task) :
    exitIds { u with exit_waiting := bucketAdd k x u.exit_waiting } ~
      x.tid :: exitIds u := by
  apply perm_of_multiset
  have hb := multiset_of_perm ((bucketAdd_flatten_perm k x u.exit_waiting).map Task.tid)
  simp only [List.map_append, List.map_cons, List.map_nil] at hb
  simp only [exitIds, exitTasks, ← Multiset.coe_add, ← Multiset.cons_coe,
    ← Multiset.singleton_add, Multiset.coe_singleton] at hb ⊢
  rw [hb]
  abel

theorem exitIds_erase_split {s : Sched} {k : Nat} {b : List Task}
    (h : assoc k s.exit_waiting = some b) :
    exitIds s ~ b.map Task.tid ++ exitIds { s with exit_waiting := eraseKey k s.exit_waiting } := by
  obtain ⟨pre, post, hsplit, herase⟩ := assoc_some_split h
  rw [hsplit] at herase
  apply perm_of_multiset
  simp only [exitIds, exitTasks, hsplit, herase, List.map_append, List.map_cons,
    List.flatten_append, List.flatten_cons, ← Multiset.coe_add]
  abel

theorem head_facts {s : Sched} {t : Task} {rest : List Task}
    (hInv : InvP s) (hr : s.ready = t :: rest) :
    t.tid ∈ s.taskmap ∧
    t.tid ∉ placedIds { s with ready := rest } ∧
    (∀ i, i ∈ s.taskmap.erase t.tid ↔ i ∈ liveIds { s with ready := rest }) := by
  obtain ⟨hnd, htnd, h1, h2, h3⟩ := hInv
  have hpc := placedIds_cons hr
  have hlc := liveIds_cons hr
  have hmem : t.tid ∈ s.taskmap := h2 _ (by rw [hlc]; exact List.mem_cons_self _ _)
  have hnot : t.tid ∉ placedIds { s with ready := rest } := by
    rw [hpc] at hnd
    exact (List.nodup_cons.mp hnd).1
  refine ⟨hmem, hnot, fun i => ?_⟩
  constructor
  · intro hi
    have hine := (List.Nodup.mem_erase_iff htnd).mp hi
    have hlive := h1 i hine.2
    rw [hlc] at hlive
    rcases List.mem_cons.mp hlive with hEq | hTail
    · exact absurd hEq hine.1
    · exact hTail
  · intro hi
    have hlive : i ∈ liveIds s := by
      rw [hlc]
      exact List.mem_cons_of_mem _ hi
    have hne : i ≠ t.tid := by
      intro hEq
      apply hnot
      rw [placedIds_def]
      exact List.mem_append_left _ (hEq ▸ hi)
    exact (List.Nodup.mem_erase_iff htnd).mpr ⟨hne, h2 i hlive⟩

theorem InvP_placement_unique {s : Sched} (hInv : InvP s) :
    ∀ i ∈ s.taskmap, placementCount s i = 1 := by
  intro i hi
  have hmem : i ∈ placedIds s := by
    rw [placedIds_def]
    exact List.mem_append_left _ (hInv.2.2.1 i hi)
  exact List.count_eq_one_of_mem hInv.1 hmem

theorem step_preserves_InvP {env : Env} {s s' : Sched}
    (hInv : InvP s) (hcl : noFdClash env s = true)
    (hstep : dispatchStep env s = .ok s') : InvP s' := by
  rcases dispatchStep_cases hstep with ⟨hr, rfl⟩ | ⟨t, rest, t2, s2, hr, hres, rfl⟩ |
    ⟨t, rest, t2, s2, hr, hres, rfl⟩ | ⟨t, rest, t2, s2, c, hr, hres, hh⟩
  · exact hInv
  · -- the resumed task yields a plain value and is re-queued
    obtain ⟨ht2, hcl2, htm2, hex2, hn2, hl⟩ := resume_plain hres
    have hmap : liveIds s2 ~ liveIds { s with ready := rest } := hl.map Task.tid
    apply InvP_of_perm hInv
    · calc liveIds { s2 with ready := s2.ready ++ [t2] }
          ~ t2.tid :: liveIds s2 := liveIds_requeue s2 t2
        _ ~ t2.tid :: liveIds { s with ready := rest } := hmap.cons t2.tid
        _ = liveIds s := by rw [ht2, ← liveIds_cons hr]
    · have hx : exitIds { s2 with ready := s2.ready ++ [t2] } = exitIds s := by
        simp [exitIds, exitTasks, hex2]
      rw [hx]
    · simpa using htm2
    · simp [hn2]
  · -- the resumed task signals completion
    obtain rfl := resume_stop hres
    obtain ⟨hmem, hnotp, hiff⟩ := head_facts hInv hr
    have htnd := hInv.2.1
    have hndt : (placedIds { s with ready := rest }).Nodup := by
      have hx := hInv.1
      rw [placedIds_cons hr] at hx
      exact (List.nodup_cons.mp hx).2
    have hfresh : ∀ i ∈ placedIds { s with ready := rest }, i < s.nextId := by
      intro i hi
      apply hInv.2.2.2.2
      rw [placedIds_cons hr]
      exact List.mem_cons_of_mem _ hi
    show InvP (notifyExit t.tid { s with ready := rest, taskmap := s.taskmap.erase t.tid })
    cases hae : assoc t.tid s.exit_waiting with
    | none =>
        have hred : notifyExit t.tid
            { s with ready := rest, taskmap := s.taskmap.erase t.tid } =
            { s with ready := rest, taskmap := s.taskmap.erase t.tid } := by
          unfold notifyExit
          rw [show assoc t.tid
              ({ s with ready := rest, taskmap := s.taskmap.erase t.tid } : Sched).exit_waiting =
              Option.none from hae]
        rw [hred]
        exact ⟨hndt, htnd.erase _, fun i hi => (hiff i).mp hi,
          fun i hi => (hiff i).mpr hi, hfresh⟩
    | some b =>
        have hred : notifyExit t.tid
            { s with ready := rest, taskmap := s.taskmap.erase t.tid } =
            { s with
              ready := rest ++ b,
              taskmap := s.taskmap.erase t.tid ++ b.map Task.tid,
              exit_waiting := eraseKey t.tid s.exit_waiting } := by
          unfold notifyExit
          rw [show assoc t.tid
              ({ s with ready := rest, taskmap := s.taskmap.erase t.tid } : Sched).exit_waiting =
              some b from hae]
        rw [hred]
        have hsplitP := exitIds_erase_split hae
        have hm1 : (↑(exitIds s) : Multiset Nat) =
            ↑(b.map Task.tid) +
              ↑(exitIds { s with exit_waiting := eraseKey t.tid s.exit_waiting }) := by
          have hx := multiset_of_perm hsplitP
          simpa [← Multiset.coe_add] using hx
        have hsplitPlaced : placedIds { s with ready := rest } ~
            (liveIds { s with ready := rest } ++ b.map Task.tid) ++
              exitIds { s with exit_waiting := eraseKey t.tid s.exit_waiting } := by
          apply perm_of_multiset
          rw [placedIds_def]
          have hx : exitIds { s with ready := rest } = exitIds s := rfl
          simp only [hx, ← Multiset.coe_add, hm1]
          abel
        have hndsplit := hsplitPlaced.nodup hndt
        have hnd1 := List.nodup_append.mp hndsplit
        have hnd2 := List.nodup_append.mp hnd1.1
        have hlive' : liveIds { s with
            ready := rest ++ b,
            taskmap := s.taskmap.erase t.tid ++ b.map Task.tid,
            exit_waiting := eraseKey t.tid s.exit_waiting } ~
            liveIds { s with ready := rest } ++ b.map Task.tid := by
          apply perm_of_multiset
          simp only [liveIds, liveTasks, ioTasks, timeTasks, List.map_append,
            ← Multiset.coe_add]
          abel
        have hexit' : exitIds { s with
            ready := rest ++ b,
            taskmap := s.taskmap.erase t.tid ++ b.map Task.tid,
            exit_waiting := eraseKey t.tid s.exit_waiting } =
            exitIds { s with exit_waiting := eraseKey t.tid s.exit_waiting } := rfl
        have hplace' : placedIds { s with
            ready := rest ++ b,
            taskmap := s.taskmap.erase t.tid ++ b.map Task.tid,
            exit_waiting := eraseKey t.tid s.exit_waiting } ~
            placedIds { s with ready := rest } := by
          rw [placedIds_def, hexit']
          exact (hlive'.append (List.Perm.refl _)).trans hsplitPlaced.symm
        refine ⟨hplace'.symm.nodup hndt, ?_, ?_, ?_, ?_⟩
        · rw [List.nodup_append]
          refine ⟨htnd.erase _, hnd2.2.1, ?_⟩
          intro a ha hb
          exact hnd2.2.2 ((hiff a).mp ha) hb
        · intro i hi
          rw [hlive'.mem_iff, List.mem_append]
          rcases List.mem_append.mp hi with hi | hi
          · exact Or.inl ((hiff i).mp hi)
          · exact Or.inr hi
        · intro i hi
          rw [hlive'.mem_iff, List.mem_append] at hi
          rw [List.mem_append]
          rcases hi with hi | hi
          · exact Or.inl ((hiff i).mpr hi)
          · exact Or.inr hi
        · intro i hi
          exact hfresh i (hplace'.mem_iff.mp hi)
  · -- the resumed task yields a system call
    obtain ⟨hs2, ht2, hcl2⟩ := resume_sys hres
    subst hs2
    obtain ⟨hmem, hnotp, hiff⟩ := head_facts hInv hr
    have htnd := hInv.2.1
    have hndt : (placedIds { s with ready := rest }).Nodup := by
      have hx := hInv.1
      rw [placedIds_cons hr] at hx
      exact (List.nodup_cons.mp hx).2
    have hfresh : ∀ i ∈ placedIds { s with ready := rest }, i < s.nextId := by
      intro i hi
      apply hInv.2.2.2.2
      rw [placedIds_cons hr]
      exact List.mem_cons_of_mem _ hi
    cases c with
    | killTask wid =>
        simp only [handleSys] at hh
        split_ifs at hh with hw
        · injection hh with hh'
          subst hh'
          apply InvP_of_perm hInv
          · have hxid : ({ closeTask wid t2 with sendval := Val.bool true } : Task).tid =
                t.tid := by
              rw [show ({ closeTask wid t2 with sendval := Val.bool true } : Task).tid =
                (closeTask wid t2).tid from rfl, closeTask_tid, ht2]
            calc liveIds { closeTid wid { s with ready := rest } with
                  ready := (closeTid wid { s with ready := rest }).ready ++
                    [{ closeTask wid t2 with sendval := Val.bool true }] }
                ~ ({ closeTask wid t2 with sendval := Val.bool true } : Task).tid ::
                    liveIds (closeTid wid { s with ready := rest }) :=
                  liveIds_requeue _ _
              _ = t.tid :: liveIds { s with ready := rest } := by
                  rw [hxid, liveIds_closeTid]
              _ = liveIds s := (liveIds_cons hr).symm
          · exact List.Perm.refl _
          · rfl
          · exact le_rfl
        · injection hh with hh'
          subst hh'
          apply InvP_of_perm hInv
          · calc liveIds { { s with ready := rest } with
                  ready := ({ s with ready := rest } : Sched).ready ++
                    [{ t2 with sendval := Val.bool false }] }
                ~ ({ t2 with sendval := Val.bool false } : Task).tid ::
                    liveIds { s with ready := rest } := liveIds_requeue _ _
              _ = t.tid :: liveIds { s with ready := rest } := by
                  rw [show ({ t2 with sendval := Val.bool false } : Task).tid = t2.tid
                    from rfl, ht2]
              _ = liveIds s := (liveIds_cons hr).symm
          · exact List.Perm.refl _
          · rfl
          · exact le_rfl
    | waitForTask wid =>
        simp only [handleSys] at hh
        split_ifs at hh with hw
        · injection hh with hh'
          subst hh'
          have hexitP : exitIds { { s with ready := rest } with
              taskmap := ({ s with ready := rest } : Sched).taskmap.erase t2.tid,
              exit_waiting := bucketAdd wid { t2 with sendval := Val.bool true }
                ({ s with ready := rest } : Sched).exit_waiting } ~
              t2.tid :: exitIds { s with ready := rest } :=
            exitIds_park_exit { s with ready := rest } wid
              { t2 with sendval := Val.bool true }
          have hliveEq : liveIds { { s with ready := rest } with
              taskmap := ({ s with ready := rest } : Sched).taskmap.erase t2.tid,
              exit_waiting := bucketAdd wid { t2 with sendval := Val.bool true }
                ({ s with ready := rest } : Sched).exit_waiting } =
              liveIds { s with ready := rest } := rfl
          have hplace' : placedIds { { s with ready := rest } with
              taskmap := ({ s with ready := rest } : Sched).taskmap.erase t2.tid,
              exit_waiting := bucketAdd wid { t2 with sendval := Val.bool true }
                ({ s with ready := rest } : Sched).exit_waiting } ~
              placedIds s := by
            rw [placedIds_def, hliveEq, placedIds_cons hr, placedIds_def]
            calc liveIds { s with ready := rest } ++ exitIds { { s with ready := rest } with
                  taskmap := ({ s with ready := rest } : Sched).taskmap.erase t2.tid,
                  exit_waiting := bucketAdd wid { t2 with sendval := Val.bool true }
                    ({ s with ready := rest } : Sched).exit_waiting }
                ~ liveIds { s with ready := rest } ++
                    (t2.tid :: exitIds { s with ready := rest }) :=
                  hexitP.append_left _
              _ ~ t2.tid :: (liveIds { s with ready := rest } ++
                    exitIds { s with ready := rest }) := List.perm_middle
              _ = t.tid :: (liveIds { s with ready := rest } ++
                    exitIds { s with ready := rest }) := by rw [ht2]
          refine ⟨hplace'.symm.nodup hInv.1, ?_, ?_, ?_, ?_⟩
          · rw [show ({ s with ready := rest } : Sched).taskmap.erase t2.tid =
              s.taskmap.erase t.tid from by rw [ht2]]
            exact htnd.erase _
          · intro i hi
            rw [show ({ s with ready := rest } : Sched).taskmap.erase t2.tid =
              s.taskmap.erase t.tid from by rw [ht2]] at hi
            exact (hiff i).mp hi
          · intro i hi
            rw [show ({ s with ready := rest } : Sched).taskmap.erase t2.tid =
              s.taskmap.erase t.tid from by rw [ht2]]
            exact (hiff i).mpr hi
          · intro i hi
            exact hInv.2.2.2.2 i (hplace'.mem_iff.mp hi)
        · injection hh with hh'
          subst hh'
          apply InvP_of_perm hInv
          · calc liveIds { { s with ready := rest } with
                  ready := ({ s with ready := rest } : Sched).ready ++
                    [{ t2 with sendval := Val.bool false }] }
                ~ ({ t2 with sendval := Val.bool false } : Task).tid ::
                    liveIds { s with ready := rest } := liveIds_requeue _ _
              _ = t.tid :: liveIds { s with ready := rest } := by
                  rw [show ({ t2 with sendval := Val.bool false } : Task).tid = t2.tid
                    from rfl, ht2]
              _ = liveIds s := (liveIds_cons hr).symm
          · exact List.Perm.refl _
          · rfl
          · exact le_rfl
    | waitForTime secs =>
        simp only [handleSys] at hh
        split_ifs at hh with hsec
        injection hh with hh'
        subst hh'
        apply InvP_of_perm hInv
        · calc liveIds { { s with ready := rest } with
                time_waiting := bucketAdd (wakeTime env.now secs) t2
                  ({ s with ready := rest } : Sched).time_waiting }
              ~ t2.tid :: liveIds { s with ready := rest } :=
                liveIds_park_time { s with ready := rest } _ _
            _ = t.tid :: liveIds { s with ready := rest } := by rw [ht2]
            _ = liveIds s := (liveIds_cons hr).symm
        · exact List.Perm.refl _
        · rfl
        · exact le_rfl
    | readTask fd =>
        simp only [handleSys] at hh
        injection hh with hh'
        subst hh'
        have hsc := stepSyscall_eq hr hres
        have hnone : assoc fd s.io_waiting = Option.none := by
          unfold noFdClash at hcl
          rw [hsc] at hcl
          simpa using hcl
        apply InvP_of_perm hInv
        · calc liveIds { { s with ready := rest } with
                io_waiting := mapSet fd t2 ({ s with ready := rest } : Sched).io_waiting }
              ~ t2.tid :: liveIds { s with ready := rest } :=
                liveIds_park_io { s with ready := rest } fd t2 hnone
            _ = t.tid :: liveIds { s with ready := rest } := by rw [ht2]
            _ = liveIds s := (liveIds_cons hr).symm
        · exact List.Perm.refl _
        · rfl
        · exact le_rfl
    | writeTask fd =>
        simp only [handleSys] at hh
        injection hh with hh'
        subst hh'
        have hsc := stepSyscall_eq hr hres
        have hnone : assoc fd s.io_waiting = Option.none := by
          unfold noFdClash at hcl
          rw [hsc] at hcl
          simpa using hcl
        apply InvP_of_perm hInv
        · calc liveIds { { s with ready := rest } with
                io_waiting := mapSet fd t2 ({ s with ready := rest } : Sched).io_waiting }
              ~ t2.tid :: liveIds { s with ready := rest } :=
                liveIds_park_io { s with ready := rest } fd t2 hnone
            _ = t.tid :: liveIds { s with ready := rest } := by rw [ht2]
            _ = liveIds s := (liveIds_cons hr).symm
        · exact List.Perm.refl _
        · rfl
        · exact le_rfl

/-! ### Further structural helper lemmas -/

theorem liveTasks_requeue (u : Sched) (x : Task) :
    liveTasks { u with ready := u.ready ++ [x] } ~ x :: liveTasks u := by
  apply perm_of_multiset
  simp only [liveTasks, ioTasks, timeTasks, ← Multiset.coe_add, ← Multiset.cons_coe,
    ← Multiset.singleton_add, Multiset.coe_singleton]
  abel

theorem liveTasks_ready_append (u : Sched) (b : List Task) :
    liveTasks { u with ready := u.ready ++ b } ~ liveTasks u ++ b := by
  apply perm_of_multiset
  simp only [liveTasks, ioTasks, timeTasks, ← Multiset.coe_add]
  abel

theorem liveTasks_park_time (u : Sched) (k : ℚ) (x : Task) :
    liveTasks { u with time_waiting := bucketAdd k x u.time_waiting } ~
      x :: liveTasks u := by
  apply perm_of_multiset
  have hb := multiset_of_perm (bucketAdd_flatten_perm k x u.time_waiting)
  simp only [liveTasks, ioTasks, timeTasks, ← Multiset.coe_add, ← Multiset.cons_coe,
    ← Multiset.singleton_add, Multiset.coe_singleton] at hb ⊢
  rw [hb]
  abel

theorem liveTasks_closeTid (wid : Nat) (s : Sched) :
    liveTasks (closeTid wid s) = (liveTasks s).map (closeTask wid) := by
  simp [liveTasks, ioTasks, timeTasks, closeTid, List.map_map, List.map_append,
    Function.comp_def, List.map_flatten]

theorem mem_bucketAdd {α : Type} [DecidableEq α] {k : α} {t : Task}
    {l : List (α × List Task)} {p : α × List Task} (h : p ∈ bucketAdd k t l) :
    p ∈ l ∨ (∃ q ∈ l, q.1 = k ∧ p = (q.1, q.2 ++ [t])) ∨ p = (k, [t]) := by
  induction l with
  | nil =>
      simp [bucketAdd] at h
      exact Or.inr (Or.inr h)
  | cons q rest ih =>
      simp only [bucketAdd] at h
      by_cases hk : q.1 = k
      · rw [if_pos hk] at h
        rcases List.mem_cons.mp h with hEq | hMem
        · exact Or.inr (Or.inl ⟨q, List.mem_cons_self _ _, hk, hEq⟩)
        · exact Or.inl (List.mem_cons_of_mem _ hMem)
      · rw [if_neg hk] at h
        rcases List.mem_cons.mp h with hEq | hMem
        · exact Or.inl (hEq ▸ List.mem_cons_self _ _)
        · rcases ih hMem with h1 | ⟨q2, hq2, hk2, hEq2⟩ | h3
          · exact Or.inl (List.mem_cons_of_mem _ h1)
          · exact Or.inr (Or.inl ⟨q2, List.mem_cons_of_mem _ hq2, hk2, hEq2⟩)
          · exact Or.inr (Or.inr h3)

theorem eraseKey_sublist {α β : Type} [DecidableEq α] (k : α) (l : List (α × β)) :
    (eraseKey k l).Sublist l := by
  induction l with
  | nil => exact List.Sublist.refl _
  | cons p rest ih =>
      simp only [eraseKey]
      by_cases hk : p.1 = k
      · rw [if_pos hk]
        exact List.sublist_cons_self _ _
      · rw [if_neg hk]
        exact ih.cons₂ _

theorem assoc_some_mem {α β : Type} [DecidableEq α] {k : α} {b : β}
    {l : List (α × β)} (h : assoc k l = some b) : (k, b) ∈ l := by
  induction l with
  | nil => simp [assoc] at h
  | cons p rest ih =>
      by_cases hk : p.1 = k
      · simp only [assoc, if_pos hk] at h
        obtain rfl : p.2 = b := Option.some.inj h
        have : p = (k, p.2) := by
          rw [← hk]
        exact this ▸ List.mem_cons_self _ _
      · simp only [assoc, if_neg hk] at h
        exact List.mem_cons_of_mem _ (ih h)

theorem assoc_eq_none_of_not_mem {α β : Type} [DecidableEq α] {k : α}
    {l : List (α × β)} (h : k ∉ l.map Prod.fst) : assoc k l = Option.none := by
  induction l with
  | nil => rfl
  | cons p rest ih =>
      simp only [List.map_cons, List.mem_cons] at h
      push_neg at h
      have hne : ¬ p.1 = k := fun hk => h.1 hk.symm
      simp only [assoc, if_neg hne]
      exact ih h.2

theorem assoc_eraseKey_self {α β : Type} [DecidableEq α] {k : α}
    {l : List (α × β)} (h : (l.map Prod.fst).Nodup) :
    assoc k (eraseKey k l) = Option.none := by
  induction l with
  | nil => rfl
  | cons p rest ih =>
      simp only [List.map_cons, List.nodup_cons] at h
      simp only [eraseKey]
      by_cases hk : p.1 = k
      · rw [if_pos hk]
        exact assoc_eq_none_of_not_mem (hk ▸ h.1)
      · rw [if_neg hk]
        simp only [assoc, if_neg hk]
        exact ih h.2

theorem mem_exitTasks_of_mem_bucket {s : Sched} {p : Nat × List Task} {v : Task}
    (hp : p ∈ s.exit_waiting) (hv : v ∈ p.2) : v ∈ exitTasks s := by
  unfold exitTasks
  rw [List.mem_flatten]
  exact ⟨p.2, List.mem_map_of_mem Prod.snd hp, hv⟩

/-! ### Permanence of a self-parked task -/

theorem selfParked_step {env : Env} {s s' : Sched} {x : Nat}
    (hp : SelfParked s x) (hstep : dispatchStep env s = .ok s') :
    SelfParked s' x := by
  obtain ⟨hp1, hp2, hp3, hp4, hp5⟩ := hp
  rcases dispatchStep_cases hstep with ⟨hr, rfl⟩ | ⟨t, rest, t2, s2, hr, hres, rfl⟩ |
    ⟨t, rest, t2, s2, hr, hres, rfl⟩ | ⟨t, rest, t2, s2, c, hr, hres, hh⟩
  · exact ⟨hp1, hp2, hp3, hp4, hp5⟩
  case _ =>
    -- plain value: re-queue
    obtain ⟨ht2, hcl2, htm2, hex2, hn2, hl⟩ := resume_plain hres
    have hht : t.tid ≠ x := hp2 t (by
      unfold liveTasks
      rw [hr]
      exact List.mem_append_left _ (List.mem_append_left _ (List.mem_cons_self _ _)))
    have htail : ∀ v ∈ liveTasks { s with ready := rest }, v.tid ≠ x := by
      intro v hv
      apply hp2
      rw [liveTasks_cons hr]
      exact List.mem_cons_of_mem _ hv
    refine ⟨?_, ?_, ?_, ?_, ?_⟩
    · show x ∉ s2.taskmap
      rw [htm2]
      exact hp1
    · intro v hv
      have hv2 := (liveTasks_requeue s2 t2).mem_iff.mp hv
      rcases List.mem_cons.mp hv2 with hEq | hvm
      · rw [hEq, ht2]
        exact hht
      · exact htail v (hl.mem_iff.mp hvm)
    · show x ∈ ((assoc x s2.exit_waiting).getD []).map Task.tid
      rw [hex2]
      exact hp3
    · intro p hpmem
      have hpm2 : p ∈ s.exit_waiting := by
        have hx : p ∈ s2.exit_waiting := hpmem
        rwa [hex2] at hx
      exact hp4 p hpm2
    · show x < s2.nextId
      rw [hn2]
      exact hp5
  case _ =>
    -- completion
    obtain rfl := resume_stop hres
    have hht : t.tid ≠ x := hp2 t (by
      unfold liveTasks
      rw [hr]
      exact List.mem_append_left _ (List.mem_append_left _ (List.mem_cons_self _ _)))
    have htail : ∀ v ∈ liveTasks { s with ready := rest }, v.tid ≠ x := by
      intro v hv
      apply hp2
      rw [liveTasks_cons hr]
      exact List.mem_cons_of_mem _ hv
    show SelfParked (notifyExit t.tid
      { s with ready := rest, taskmap := s.taskmap.erase t.tid }) x
    cases hae : assoc t.tid s.exit_waiting with
    | none =>
        have hred : notifyExit t.tid
            { s with ready := rest, taskmap := s.taskmap.erase t.tid } =
            { s with ready := rest, taskmap := s.taskmap.erase t.tid } := by
          unfold notifyExit
          rw [show assoc t.tid
              ({ s with ready := rest, taskmap := s.taskmap.erase t.tid } : Sched).exit_waiting =
              Option.none from hae]
        rw [hred]
        exact ⟨fun hx => hp1 (List.erase_subset _ _ hx), htail, hp3, hp4, hp5⟩
    | some b =>
        have hred : notifyExit t.tid
            { s with ready := rest, taskmap := s.taskmap.erase t.tid } =
            { s with
              ready := rest ++ b,
              taskmap := s.taskmap.erase t.tid ++ b.map Task.tid,
              exit_waiting := eraseKey t.tid s.exit_waiting } := by
          unfold notifyExit
          rw [show assoc t.tid
              ({ s with ready := rest, taskmap := s.taskmap.erase t.tid } : Sched).exit_waiting =
              some b from hae]
        rw [hred]
        have hbmem : (t.tid, b) ∈ s.exit_waiting := assoc_some_mem hae
        have hbtid : ∀ v ∈ b, v.tid ≠ x := hp4 (t.tid, b) hbmem hht
        refine ⟨?_, ?_, ?_, ?_, hp5⟩
        · intro hx
          rcases List.mem_append.mp hx with hx | hx
          · exact hp1 (List.erase_subset _ _ hx)
          · obtain ⟨v, hv, hvx⟩ := List.mem_map.mp hx
            exact hbtid v hv hvx
        · intro v hv
          have hv2 := (liveTasks_ready_append { s with ready := rest } b).mem_iff.mp hv
          rcases List.mem_append.mp hv2 with hvm | hvm
          · exact htail v hvm
          · exact hbtid v hvm
        · show x ∈ ((assoc x (eraseKey t.tid s.exit_waiting)).getD []).map Task.tid
          rw [assoc_eraseKey_ne (fun hEq => hht hEq.symm)]
          exact hp3
        · intro p hpmem
          exact hp4 p ((eraseKey_sublist t.tid s.exit_waiting).mem hpmem)
  case _ =>
    -- system call
    obtain ⟨hs2, ht2, hcl2⟩ := resume_sys hres
    subst hs2
    have hht : t.tid ≠ x := hp2 t (by
      unfold liveTasks
      rw [hr]
      exact List.mem_append_left _ (List.mem_append_left _ (List.mem_cons_self _ _)))
    have htail : ∀ v ∈ liveTasks { s with ready := rest }, v.tid ≠ x := by
      intro v hv
      apply hp2
      rw [liveTasks_cons hr]
      exact List.mem_cons_of_mem _ hv
    cases c with
    | killTask wid =>
        simp only [handleSys] at hh
        split_ifs at hh with hw
        · injection hh with hh'
          subst hh'
          refine ⟨hp1, ?_, hp3, hp4, hp5⟩
          intro v hv
          have hv2 := (liveTasks_requeue (closeTid wid { s with ready := rest })
            { closeTask wid t2 with sendval := Val.bool true }).mem_iff.mp hv
          rcases List.mem_cons.mp hv2 with hEq | hvm
          · rw [hEq]
            show (closeTask wid t2).tid ≠ x
            rw [closeTask_tid, ht2]
            exact hht
          · rw [liveTasks_closeTid] at hvm
            obtain ⟨u, hu, hueq⟩ := List.mem_map.mp hvm
            rw [← hueq, closeTask_tid]
            exact htail u hu
        · injection hh with hh'
          subst hh'
          refine ⟨hp1, ?_, hp3, hp4, hp5⟩
          intro v hv
          have hv2 := (liveTasks_requeue { s with ready := rest }
            { t2 with sendval := Val.bool false }).mem_iff.mp hv
          rcases List.mem_cons.mp hv2 with hEq | hvm
          · rw [hEq]
            show t2.tid ≠ x
            rw [ht2]
            exact hht
          · exact htail v hvm
    | waitForTask wid =>
        simp only [handleSys] at hh
        split_ifs at hh with hw
        · injection hh with hh'
          subst hh'
          have hwx : wid ≠ x := fun hEq => hp1 (hEq ▸ hw)
          refine ⟨?_, htail, ?_, ?_, hp5⟩
          · intro hx
            exact hp1 (List.erase_subset _ _ hx)
          · show x ∈ ((assoc x (bucketAdd wid { t2 with sendval := Val.bool true }
              s.exit_waiting)).getD []).map Task.tid
            rw [assoc_bucketAdd_ne (fun hEq => hwx hEq.symm)]
            exact hp3
          · intro p hpmem hpx v hv
            rcases mem_bucketAdd hpmem with hm | ⟨q, hq, hqk, hEq⟩ | hEq
            · exact hp4 p hm hpx v hv
            · rw [hEq] at hv hpx
              rcases List.mem_append.mp hv with hvm | hvm
              · exact hp4 q hq (hqk ▸ hpx) v hvm
              · rw [List.mem_singleton.mp hvm]
                show t2.tid ≠ x
                rw [ht2]
                exact hht
            · rw [hEq] at hv
              rw [List.mem_singleton.mp hv]
              show t2.tid ≠ x
              rw [ht2]
              exact hht
        · injection hh with hh'
          subst hh'
          refine ⟨hp1, ?_, hp3, hp4, hp5⟩
          intro v hv
          have hv2 := (liveTasks_requeue { s with ready := rest }
            { t2 with sendval := Val.bool false }).mem_iff.mp hv
          rcases List.mem_cons.mp hv2 with hEq | hvm
          · rw [hEq]
            show t2.tid ≠ x
            rw [ht2]
            exact hht
          · exact htail v hvm
    | waitForTime secs =>
        simp only [handleSys] at hh
        split_ifs at hh with hsec
        injection hh with hh'
        subst hh'
        refine ⟨hp1, ?_, hp3, hp4, hp5⟩
        intro v hv
        have hv2 := (liveTasks_park_time { s with ready := rest }
          (wakeTime env.now secs) t2).mem_iff.mp hv
        rcases List.mem_cons.mp hv2 with hEq | hvm
        · rw [hEq, ht2]
          exact hht
        · exact htail v hvm
    | readTask fd =>
        simp only [handleSys] at hh
        injection hh with hh'
        subst hh'
        refine ⟨hp1, ?_, hp3, hp4, hp5⟩
        intro v hv
        unfold liveTasks ioTasks timeTasks at hv
        rcases List.mem_append.mp hv with hv1 | hv1
        · rcases List.mem_append.mp hv1 with hv2 | hv2
          · refine htail v ?_
            unfold liveTasks
            exact List.mem_append_left _ (List.mem_append_left _ hv2)
          · rcases mapSet_snd_mem hv2 with hv3 | hv3
            · refine htail v ?_
              unfold liveTasks ioTasks
              exact List.mem_append_left _ (List.mem_append_right _ hv3)
            · rw [hv3, ht2]
              exact hht
        · refine htail v ?_
          unfold liveTasks timeTasks
          exact List.mem_append_right _ hv1
    | writeTask fd =>
        simp only [handleSys] at hh
        injection hh with hh'
        subst hh'
        refine ⟨hp1, ?_, hp3, hp4, hp5⟩
        intro v hv
        unfold liveTasks ioTasks timeTasks at hv
        rcases List.mem_append.mp hv with hv1 | hv1
        · rcases List.mem_append.mp hv1 with hv2 | hv2
          · refine htail v ?_
            unfold liveTasks
            exact List.mem_append_left _ (List.mem_append_left _ hv2)
          · rcases mapSet_snd_mem hv2 with hv3 | hv3
            · refine htail v ?_
              unfold liveTasks ioTasks
              exact List.mem_append_left _ (List.mem_append_right _ hv3)
            · rw [hv3, ht2]
              exact hht
        · refine htail v ?_
          unfold liveTasks timeTasks
          exact List.mem_append_right _ hv1

theorem selfParked_new {s : Sched} {x : Nat} (b : Body) (hp : SelfParked s x) :
    SelfParked (new s b).2 x := by
  obtain ⟨hp1, hp2, hp3, hp4, hp5⟩ := hp
  refine ⟨?_, ?_, hp3, hp4, ?_⟩
  · intro hx
    rcases List.mem_append.mp hx with hx | hx
    · exact hp1 hx
    · exact absurd (List.mem_singleton.mp hx) (Nat.ne_of_lt hp5)
  · intro v hv
    have hv2 := (liveTasks_requeue s
      { tid := s.nextId, body := b, sendval := .none, closed := false }).mem_iff.mp hv
    rcases List.mem_cons.mp hv2 with hEq | hvm
    · rw [hEq]
      exact fun hEq2 => (Nat.ne_of_lt hp5) hEq2.symm
    · exact hp2 v hvm
  · exact Nat.lt_succ_of_lt hp5

theorem selfParked_run {x : Nat} :
    ∀ (ins : List Input) {s s' : Sched}, SelfParked s x →
      runInputs s ins = .ok s' → SelfParked s' x := by
  intro ins
  induction ins with
  | nil =>
      intro s s' hp h
      obtain rfl : s = s' := by simpa [runInputs] using h
      exact hp
  | cons i rest ih =>
      intro s s' hp h
      cases i with
      | step e =>
          simp only [runInputs] at h
          cases hd : dispatchStep e s with
          | error err =>
              rw [hd] at h
              simp at h
          | ok s2 =>
              rw [hd] at h
              dsimp only at h
              exact ih (selfParked_step hp hd) h
      | submit b =>
          simp only [runInputs] at h
          exact ih (selfParked_new b hp) h

/-! ## The claims -/

/-- C2: the dispatch loop's `try` block catches only `StopIteration`.  A
task body raising any other exception is not contained at the dispatch
boundary: on a booted scheduler with one user task whose body raises, the
third loop iteration (after one tick each of the two background tasks)
aborts the whole loop with the task's exception, so the scheduler thread
terminates and no other task ever runs again — contradicting the claim
that the failure is caught and terminates only that task. -/
theorem c2_uncaught_exception_kills_scheduler :
    runInputs c2state [.step (envAt 0), .step (envAt 0), .step (envAt 0)] =
      .error .taskExc := rfl

/-- C3: the wake deadline computed by `WaitForTime.handle` rounds
`time.time() + seconds` DOWN to a multiple of `seconds`
(`int(exptime * resolution) / resolution` with `resolution = 1/seconds`),
so a sleep can end early.  A sleep of duration 1 issued at time 1/2 is
filed under deadline 1, and the time-poll task re-queues the sleeper at
time 1, which is only 1/2 after issuance — strictly earlier than
issuance + duration = 3/2. -/
theorem c3_sleep_wakes_early :
    wakeTime (1/2) 1 = 1 ∧ (1 : ℚ) < 1/2 + 1 := by
  constructor
  · norm_num [wakeTime, pyTrunc]
  · norm_num

/-- C5: a zero-duration sleep is not handled without error:
`WaitForTime.handle` computes `resolution = 1.0 / seconds`, which raises
`ZeroDivisionError` for `seconds = 0`.  On a booted scheduler with one
zero-sleeping task and the `wait_for_tasks` task submitted by `joinall`,
the third loop iteration aborts the scheduler with the division error, so
the task never completes and `joinall` blocks forever. -/
theorem c5_zero_sleep_crashes_scheduler :
    runInputs c5state [.step (envAt 0), .step (envAt 0), .step (envAt 0)] =
      .error .zeroDivision := rfl

/-- C6: the I/O-poll task's blocking branch is dead code.  The source
decides between the infinite-timeout wait and the zero-timeout poll with
`not(self.ready)`, but `self.ready` is a `Queue.Queue` object, which is
always truthy, so the non-blocking poll is issued even when the ready
queue is empty: on a state with a non-empty reactor waiting set and an
empty ready queue the chosen timeout is 0, not the claimed -1. -/
theorem c6_io_poll_never_blocks :
    c6state.ready = [] ∧ c6state.io_waiting ≠ [] ∧
      ioPollTimeout c6state = some 0 := by decide

/-- C4: `AwaitExit` semantics.  When a task yields `WaitForTask wid` from
the head of the ready queue: if `wid` is in the registry, the waiting
task is removed from the registry, appended (last) to the exit-waiter
bucket keyed by `wid` with result `True`, and not re-queued; if `wid` is
absent, the registry and exit-waiter index are untouched and the waiting
task is immediately re-queued with result `False` ("no such live
target"). -/
theorem c4_await_exit_semantics {env : Env} {s : Sched} {t : Task}
    {rest : List Task} {wid : Nat} {r : List Action}
    (hr : s.ready = t :: rest)
    (hb : t.body = .script (.yieldSys (.waitForTask wid) :: r))
    (hc : t.closed = false) (hInv : InvP s) :
    ∃ s', dispatchStep env s = .ok s' ∧
      (wid ∈ s.taskmap →
        t.tid ∉ s'.taskmap ∧ t.tid ∉ s'.ready.map Task.tid ∧
        ∃ ts, assoc wid s'.exit_waiting = some ts ∧
          ∃ u, ts.getLast? = some u ∧ u.tid = t.tid ∧ u.sendval = .bool true) ∧
      (wid ∉ s.taskmap →
        s'.taskmap = s.taskmap ∧ s'.exit_waiting = s.exit_waiting ∧
        ∃ u, s'.ready = rest ++ [u] ∧ u.tid = t.tid ∧ u.sendval = .bool false) := by
  obtain ⟨hmem, hnotp, hiff⟩ := head_facts hInv hr
  obtain ⟨i, b0, v, cl⟩ := t
  dsimp only at hb hc hmem hnotp hiff ⊢
  subst hb
  subst hc
  have hstep : dispatchStep env s = handleSys env (.waitForTask wid)
      { s with ready := rest }
      { tid := i, body := .script r, sendval := v, closed := false } := by
    unfold dispatchStep
    rw [hr]
    rfl
  by_cases hw : wid ∈ s.taskmap
  · have hstep2 : dispatchStep env s = .ok { s with
        ready := rest,
        taskmap := s.taskmap.erase i,
        exit_waiting := bucketAdd wid
          { tid := i, body := .script r, sendval := Val.bool true, closed := false }
          s.exit_waiting } := by
      rw [hstep]
      simp only [handleSys]
      rw [if_pos hw]
    refine ⟨_, hstep2, ?_, ?_⟩
    · intro _
      refine ⟨?_, ?_, ?_⟩
      · intro hx
        exact ((List.Nodup.mem_erase_iff hInv.2.1).mp hx).1 rfl
      · intro hx
        apply hnotp
        rw [placedIds_def]
        apply List.mem_append_left
        unfold liveIds liveTasks
        rw [List.map_append, List.map_append]
        exact List.mem_append_left _ (List.mem_append_left _ hx)
      · rw [show assoc wid (bucketAdd wid
            { tid := i, body := Body.script r, sendval := Val.bool true, closed := false }
            s.exit_waiting) =
            some ((assoc wid s.exit_waiting).getD [] ++
              [{ tid := i, body := Body.script r, sendval := Val.bool true,
                 closed := false }]) from assoc_bucketAdd_self _ _ _]
        exact ⟨_, rfl, _, List.getLast?_concat _, rfl, rfl⟩
    · intro hw2
      exact absurd hw hw2
  · have hstep2 : dispatchStep env s = .ok { s with
        ready := rest ++
          [{ tid := i, body := .script r, sendval := Val.bool false, closed := false }] } := by
      rw [hstep]
      simp only [handleSys]
      rw [if_neg hw]
    refine ⟨_, hstep2, ?_, ?_⟩
    · intro hw2
      exact absurd hw2 hw
    · intro _
      exact ⟨rfl, rfl, _, rfl, rfl, rfl⟩

/-- C4 witness: in `c4w`, task 8 awaits the live task 9; the theorem's
hypotheses hold and its conclusions follow at this concrete state. -/
theorem c4_await_exit_semantics_witness :
    ∃ s', dispatchStep (envAt 0) c4w = .ok s' ∧
      (9 ∈ c4w.taskmap →
        8 ∉ s'.taskmap ∧ 8 ∉ s'.ready.map Task.tid ∧
        ∃ ts, assoc 9 s'.exit_waiting = some ts ∧
          ∃ u, ts.getLast? = some u ∧ u.tid = 8 ∧ u.sendval = .bool true) ∧
      (9 ∉ c4w.taskmap →
        s'.taskmap = c4w.taskmap ∧ s'.exit_waiting = c4w.exit_waiting ∧
        ∃ u, s'.ready = (c4w.ready.drop 1) ++ [u] ∧ u.tid = 8 ∧
          u.sendval = .bool false) :=
  @c4_await_exit_semantics (envAt 0) c4w
    { tid := 8, body := .script [.yieldSys (.waitForTask 9)], sendval := .none,
      closed := false }
    [{ tid := 9, body := .script [.yieldVal], sendval := .none, closed := false }]
    9 [] rfl rfl rfl (by decide)

/-- C8: completion notification.  When the task resumed from the head of
the ready queue signals completion (`StopIteration`), the dispatch loop
removes its id from the registry, clears the exit-waiter index entry
keyed by that id, and every task that was parked in that entry is back in
the registry and in the ready queue.  (`hkeys` states that the
exit-waiter dict has no duplicate keys, which is automatic for a Python
dict.) -/
theorem c8_completion_notifies_waiters {env : Env} {s : Sched} {t t2 : Task}
    {rest : List Task} {s2 : Sched}
    (hr : s.ready = t :: rest)
    (hstop : resume env { s with ready := rest } t = .ok (.stop, t2, s2))
    (hInv : InvP s)
    (hkeys : (s.exit_waiting.map Prod.fst).Nodup) :
    ∃ s', dispatchStep env s = .ok s' ∧
      t.tid ∉ s'.taskmap ∧
      assoc t.tid s'.exit_waiting = Option.none ∧
      ∀ w ∈ (assoc t.tid s.exit_waiting).getD [],
        w.tid ∈ s'.taskmap ∧ w ∈ s'.ready := by
  have hs2 := resume_stop hstop
  subst hs2
  obtain ⟨hmem, hnotp, hiff⟩ := head_facts hInv hr
  have hstep : dispatchStep env s =
      .ok (notifyExit t.tid { s with ready := rest, taskmap := s.taskmap.erase t.tid }) := by
    unfold dispatchStep
    rw [hr]
    dsimp only
    rw [hstop]
  cases hae : assoc t.tid s.exit_waiting with
  | none =>
      have hred : notifyExit t.tid
          { s with ready := rest, taskmap := s.taskmap.erase t.tid } =
          { s with ready := rest, taskmap := s.taskmap.erase t.tid } := by
        unfold notifyExit
        rw [show assoc t.tid
            ({ s with ready := rest, taskmap := s.taskmap.erase t.tid } : Sched).exit_waiting =
            Option.none from hae]
      rw [hred] at hstep
      refine ⟨_, hstep, ?_, ?_, ?_⟩
      · intro hx
        exact ((List.Nodup.mem_erase_iff hInv.2.1).mp hx).1 rfl
      · exact hae
      · intro w hw
        simp at hw
  | some b =>
      have hred : notifyExit t.tid
          { s with ready := rest, taskmap := s.taskmap.erase t.tid } =
          { s with
            ready := rest ++ b,
            taskmap := s.taskmap.erase t.tid ++ b.map Task.tid,
            exit_waiting := eraseKey t.tid s.exit_waiting } := by
        unfold notifyExit
        rw [show assoc t.tid
            ({ s with ready := rest, taskmap := s.taskmap.erase t.tid } : Sched).exit_waiting =
            some b from hae]
      rw [hred] at hstep
      refine ⟨_, hstep, ?_, ?_, ?_⟩
      · intro hx
        rcases List.mem_append.mp hx with hx | hx
        · exact ((List.Nodup.mem_erase_iff hInv.2.1).mp hx).1 rfl
        · obtain ⟨w, hwb, hwt⟩ := List.mem_map.mp hx
          apply hnotp
          rw [placedIds_def]
          apply List.mem_append_right
          exact hwt ▸ List.mem_map_of_mem Task.tid
            (mem_exitTasks_of_mem_bucket (assoc_some_mem hae) hwb)
      · exact assoc_eraseKey_self hkeys
      · intro w hw
        exact ⟨List.mem_append_right _ (List.mem_map_of_mem Task.tid hw),
          List.mem_append_right _ hw⟩

/-- C8 witness: in `c8w`, task 2 completes while task 6 is parked waiting
for it; the theorem's conclusions follow at this concrete state. -/
theorem c8_completion_notifies_waiters_witness :
    ∃ s', dispatchStep (envAt 0) c8w = .ok s' ∧
      2 ∉ s'.taskmap ∧
      assoc 2 s'.exit_waiting = Option.none ∧
      ∀ w ∈ (assoc 2 c8w.exit_waiting).getD [],
        w.tid ∈ s'.taskmap ∧ w ∈ s'.ready :=
  @c8_completion_notifies_waiters (envAt 0) c8w
    { tid := 2, body := .script [], sendval := .none, closed := false }
    { tid := 2, body := .script [], sendval := .none, closed := false }
    [] { c8w with ready := [] }
    rfl rfl (by decide) (by decide)

/-- C9: `Kill` semantics.  When a task yields `KillTask wid` from the
head of the ready queue, the step never raises: if `wid` is registered,
every registered placement holding a task with id `wid` has its generator
closed (the cancellation signal `target.close()`) and the caller is
answered `True`; otherwise the caller is answered `False`; in both cases
the caller is re-queued exactly once (the new ready queue is the old tail
plus exactly one task carrying the caller's id) and the registry is
untouched. -/
theorem c9_kill_semantics {env : Env} {s : Sched} {t : Task}
    {rest : List Task} {wid : Nat} {r : List Action}
    (hr : s.ready = t :: rest)
    (hb : t.body = .script (.yieldSys (.killTask wid) :: r))
    (hc : t.closed = false) :
    ∃ s' u, dispatchStep env s = .ok s' ∧
      s'.ready.map Task.tid = rest.map Task.tid ++ [t.tid] ∧
      s'.ready.getLast? = some u ∧ u.tid = t.tid ∧
      s'.taskmap = s.taskmap ∧
      (wid ∈ s.taskmap → u.sendval = .bool true ∧
        ∀ v ∈ liveTasks s', v.tid = wid → v.closed = true) ∧
      (wid ∉ s.taskmap → u.sendval = .bool false ∧
        s'.io_waiting = s.io_waiting ∧ s'.time_waiting = s.time_waiting ∧
        s'.exit_waiting = s.exit_waiting) := by
  obtain ⟨i, b0, v, cl⟩ := t
  dsimp only at hb hc ⊢
  subst hb
  subst hc
  have hstep : dispatchStep env s = handleSys env (.killTask wid)
      { s with ready := rest }
      { tid := i, body := .script r, sendval := v, closed := false } := by
    unfold dispatchStep
    rw [hr]
    rfl
  by_cases hw : wid ∈ s.taskmap
  · have hstep2 : dispatchStep env s = .ok { closeTid wid { s with ready := rest } with
        ready := (closeTid wid { s with ready := rest }).ready ++
          [{ closeTask wid { tid := i, body := .script r, sendval := v, closed := false } with
             sendval := Val.bool true }] } := by
      rw [hstep]
      simp only [handleSys]
      rw [if_pos hw]
    refine ⟨_, { closeTask wid { tid := i, body := .script r, sendval := v, closed := false } with sendval := Val.bool true }, hstep2, ?_, ?_, ?_, rfl, ?_, ?_⟩
    · show ((closeTid wid { s with ready := rest }).ready ++
        [{ closeTask wid { tid := i, body := .script r, sendval := v, closed := false } with
           sendval := Val.bool true }]).map Task.tid = rest.map Task.tid ++ [i]
      rw [List.map_append]
      congr 1
      · show (rest.map (closeTask wid)).map Task.tid = rest.map Task.tid
        rw [List.map_map]
        exact List.map_congr_left (fun u _ => closeTask_tid wid u)
      · simp [closeTask_tid]
    · exact List.getLast?_concat _
    · show (closeTask wid
        { tid := i, body := Body.script r, sendval := v, closed := false }).tid = i
      exact closeTask_tid _ _
    · intro _
      refine ⟨rfl, ?_⟩
      intro u hu huw
      have hu2 := (liveTasks_requeue (closeTid wid { s with ready := rest })
        { closeTask wid { tid := i, body := .script r, sendval := v, closed := false } with
          sendval := Val.bool true }).mem_iff.mp hu
      rcases List.mem_cons.mp hu2 with hEq | hum
      · rw [hEq] at huw ⊢
        have hiw : i = wid := by
          have := closeTask_tid wid
            { tid := i, body := Body.script r, sendval := v, closed := false }
          rw [show ({ closeTask wid
              { tid := i, body := Body.script r, sendval := v, closed := false } with
              sendval := Val.bool true } : Task).tid =
            (closeTask wid
              { tid := i, body := Body.script r, sendval := v, closed := false }).tid
            from rfl, this] at huw
          exact huw
        show (closeTask wid
          { tid := i, body := Body.script r, sendval := v, closed := false }).closed = true
        unfold closeTask
        rw [if_pos]
        exact hiw
      · rw [liveTasks_closeTid] at hum
        obtain ⟨u0, hu0, hu0eq⟩ := List.mem_map.mp hum
        rw [← hu0eq] at huw ⊢
        rw [closeTask_tid] at huw
        unfold closeTask
        rw [if_pos huw]
    · intro hw2
      exact absurd hw hw2
  · have hstep2 : dispatchStep env s = .ok { s with
        ready := rest ++
          [{ tid := i, body := .script r, sendval := Val.bool false, closed := false }] } := by
      rw [hstep]
      simp only [handleSys]
      rw [if_neg hw]
    refine ⟨_, { tid := i, body := .script r, sendval := Val.bool false, closed := false }, hstep2, ?_, ?_, rfl, rfl, ?_, ?_⟩
    · rw [List.map_append]
      rfl
    · exact List.getLast?_concat _
    · intro hw2
      exact absurd hw2 hw
    · intro _
      exact ⟨rfl, rfl, rfl, rfl⟩

/-- C9 witness: in `c9w`, task 3 kills task 4, which is parked in the
timer queue; the theorem's conclusions follow at this concrete state. -/
theorem c9_kill_semantics_witness :
    ∃ s' u, dispatchStep (envAt 0) c9w = .ok s' ∧
      s'.ready.map Task.tid = (c9w.ready.drop 1).map Task.tid ++ [3] ∧
      s'.ready.getLast? = some u ∧ u.tid = 3 ∧
      s'.taskmap = c9w.taskmap ∧
      (4 ∈ c9w.taskmap → u.sendval = .bool true ∧
        ∀ v ∈ liveTasks s', v.tid = 4 → v.closed = true) ∧
      (4 ∉ c9w.taskmap → u.sendval = .bool false ∧
        s'.io_waiting = c9w.io_waiting ∧ s'.time_waiting = c9w.time_waiting ∧
        s'.exit_waiting = c9w.exit_waiting) :=
  @c9_kill_semantics (envAt 0) c9w
    { tid := 3, body := .script [.yieldSys (.killTask 4)], sendval := .none,
      closed := false }
    [] 4 [] rfl rfl rfl

/-- C1 (amended): the mutual-exclusion placement invariant holds between
dispatch steps provided no `AwaitReadable`/`AwaitWritable` request is
dispatched on a descriptor that already holds a waiter: if the invariant
(`InvP` — every registered task id has exactly one placement among ready
queue, reactor waiting set, timer queue and exit-waiter lists, and the
registry is exactly the non-exit-parked placements) holds before a
dispatch step and the step is descriptor-clash-free, it holds afterwards,
and every registered task is in exactly one placement. -/
theorem c1_placement_invariant_preserved {env : Env} {s s' : Sched}
    (hInv : InvP s) (hclash : noFdClash env s = true)
    (hstep : dispatchStep env s = .ok s') :
    InvP s' ∧ ∀ i ∈ s'.taskmap, placementCount s' i = 1 :=
  have h := step_preserves_InvP hInv hclash hstep
  ⟨h, InvP_placement_unique h⟩

/-- C1 counterexample: the claim as stated — in particular for two tasks
issuing `AwaitReadable` on the same descriptor — is false.  In `c1bad`
the invariant holds, tasks 10 and 11 both await readability of
descriptor 5; after the two dispatch steps, `wait_for_read`'s
`io_waiting[fdesc] = task` has overwritten task 10's registration, and
task 10 is still in the registry but in zero placements. -/
theorem c1_counterexample :
    InvP c1bad ∧
    ∃ s2, runInputs c1bad [.step (envAt 0), .step (envAt 0)] = .ok s2 ∧
      10 ∈ s2.taskmap ∧ placementCount s2 10 = 0 :=
  ⟨by decide, _, rfl, by decide, by decide⟩

/-- C1 witness: the preservation theorem applied to the concrete step in
which the single task of `c1w` completes. -/
theorem c1_placement_invariant_preserved_witness :
    InvP c1wAfter ∧ ∀ i ∈ c1wAfter.taskmap, placementCount c1wAfter i = 1 :=
  @c1_placement_invariant_preserved (envAt 0) c1w c1wAfter (by decide) rfl rfl

/-- C7 (amended): registry lifecycle.  Across any dispatch step from an
invariant-satisfying state: an id leaves the registry only because the
step resumed that very task and the task either parked itself as an
exit-waiter (it is then placed in an exit-waiter list) or completed (it
is then in no placement); an id enters the registry only because it was a
parked exit-waiter restored to the ready queue; and a `Kill` request
never changes the registry — in particular a killed task parked in the
reactor or timer queue stays registered. -/
theorem c7_registry_lifecycle {env : Env} {s s' : Sched}
    (hInv : InvP s) (hstep : dispatchStep env s = .ok s') :
    (∀ i, i ∈ s.taskmap → i ∉ s'.taskmap →
      ∃ t rest, s.ready = t :: rest ∧ t.tid = i ∧
        (i ∈ exitIds s' ∨ i ∉ placedIds s')) ∧
    (∀ i, i ∉ s.taskmap → i ∈ s'.taskmap →
      i ∈ exitIds s ∧ i ∈ s'.ready.map Task.tid) ∧
    (∀ wid, stepSyscall env s = some (.killTask wid) → s'.taskmap = s.taskmap) := by
  rcases dispatchStep_cases hstep with ⟨hr, rfl⟩ | ⟨t, rest, t2, s2, hr, hres, rfl⟩ |
    ⟨t, rest, t2, s2, hr, hres, rfl⟩ | ⟨t, rest, t2, s2, c, hr, hres, hh⟩
  · exact ⟨fun i hi hni => absurd hi hni, fun i hni hi => absurd hi hni, fun _ _ => rfl⟩
  · -- plain value: registry unchanged
    obtain ⟨ht2, hcl2, htm2, hex2, hn2, hl⟩ := resume_plain hres
    have htm : ({ s2 with ready := s2.ready ++ [t2] } : Sched).taskmap = s.taskmap := htm2
    refine ⟨?_, ?_, ?_⟩
    · intro i hi hni
      rw [htm] at hni
      exact absurd hi hni
    · intro i hni hi
      rw [htm] at hi
      exact absurd hi hni
    · intro wid heq
      rw [stepSyscall_eq hr hres] at heq
      simp at heq
  · -- completion
    obtain rfl := resume_stop hres
    obtain ⟨hmem, hnotp, hiff⟩ := head_facts hInv hr
    suffices hsuf :
        (∀ i, i ∈ s.taskmap →
          i ∉ (notifyExit t.tid { s with ready := rest, taskmap := s.taskmap.erase t.tid }).taskmap →
          ∃ t0 rest0, s.ready = t0 :: rest0 ∧ t0.tid = i ∧
            (i ∈ exitIds (notifyExit t.tid { s with ready := rest, taskmap := s.taskmap.erase t.tid }) ∨
             i ∉ placedIds (notifyExit t.tid { s with ready := rest, taskmap := s.taskmap.erase t.tid }))) ∧
        (∀ i, i ∉ s.taskmap →
          i ∈ (notifyExit t.tid { s with ready := rest, taskmap := s.taskmap.erase t.tid }).taskmap →
          i ∈ exitIds s ∧ i ∈ (notifyExit t.tid { s with ready := rest, taskmap := s.taskmap.erase t.tid }).ready.map Task.tid) ∧
        (∀ wid, stepSyscall env s = some (.killTask wid) →
          (notifyExit t.tid { s with ready := rest, taskmap := s.taskmap.erase t.tid }).taskmap = s.taskmap) by
      exact hsuf
    cases hae : assoc t.tid s.exit_waiting with
    | none =>
        have hred : notifyExit t.tid
            { s with ready := rest, taskmap := s.taskmap.erase t.tid } =
            { s with ready := rest, taskmap := s.taskmap.erase t.tid } := by
          unfold notifyExit
          rw [show assoc t.tid
              ({ s with ready := rest, taskmap := s.taskmap.erase t.tid } : Sched).exit_waiting =
              Option.none from hae]
        rw [hred]
        refine ⟨?_, ?_, ?_⟩
        · intro i hi hni
          have hit : i = t.tid := by
            by_contra hne
            exact hni ((List.Nodup.mem_erase_iff hInv.2.1).mpr ⟨hne, hi⟩)
          subst hit
          exact ⟨t, rest, hr, rfl, Or.inr hnotp⟩
        · intro i hni hi
          exact absurd (List.erase_subset _ _ hi) hni
        · intro wid heq
          rw [stepSyscall_eq hr hres] at heq
          simp at heq
    | some b =>
        have hred : notifyExit t.tid
            { s with ready := rest, taskmap := s.taskmap.erase t.tid } =
            { s with
              ready := rest ++ b,
              taskmap := s.taskmap.erase t.tid ++ b.map Task.tid,
              exit_waiting := eraseKey t.tid s.exit_waiting } := by
          unfold notifyExit
          rw [show assoc t.tid
              ({ s with ready := rest, taskmap := s.taskmap.erase t.tid } : Sched).exit_waiting =
              some b from hae]
        rw [hred]
        have hbsub : ∀ j, j ∈ b.map Task.tid → j ∈ exitIds s := by
          intro j hj
          obtain ⟨w, hwb, hwt⟩ := List.mem_map.mp hj
          exact hwt ▸ List.mem_map_of_mem Task.tid
            (mem_exitTasks_of_mem_bucket (assoc_some_mem hae) hwb)
        have hesub : ∀ j, j ∈ exitIds { s with
            ready := rest ++ b,
            taskmap := s.taskmap.erase t.tid ++ b.map Task.tid,
            exit_waiting := eraseKey t.tid s.exit_waiting } → j ∈ exitIds s := by
          intro j hj
          obtain ⟨w, hw, hwt⟩ := List.mem_map.mp hj
          obtain ⟨l, hl, hwl⟩ := List.mem_flatten.mp hw
          obtain ⟨p, hp, hpl⟩ := List.mem_map.mp hl
          exact hwt ▸ List.mem_map_of_mem Task.tid
            (mem_exitTasks_of_mem_bucket
              ((eraseKey_sublist t.tid s.exit_waiting).mem hp) (hpl ▸ hwl))
        have hlive2 : liveIds { s with
            ready := rest ++ b,
            taskmap := s.taskmap.erase t.tid ++ b.map Task.tid,
            exit_waiting := eraseKey t.tid s.exit_waiting } ~
            liveIds { s with ready := rest } ++ b.map Task.tid := by
          apply perm_of_multiset
          simp only [liveIds, liveTasks, ioTasks, timeTasks, List.map_append,
            ← Multiset.coe_add]
          abel
        refine ⟨?_, ?_, ?_⟩
        · intro i hi hni
          have hit : i = t.tid := by
            by_contra hne
            exact hni (List.mem_append_left _
              ((List.Nodup.mem_erase_iff hInv.2.1).mpr ⟨hne, hi⟩))
          subst hit
          refine ⟨t, rest, hr, rfl, Or.inr ?_⟩
          intro hx
          rw [placedIds_def] at hx
          rcases List.mem_append.mp hx with hx | hx
          · rcases List.mem_append.mp (hlive2.mem_iff.mp hx) with hx | hx
            · exact hnotp (by rw [placedIds_def]; exact List.mem_append_left _ hx)
            · exact hnotp (by
                rw [placedIds_def]
                exact List.mem_append_right _ (hbsub _ hx))
          · exact hnotp (by
              rw [placedIds_def]
              exact List.mem_append_right _ (hesub _ hx))
        · intro i hni hi
          rcases List.mem_append.mp hi with hi | hi
          · exact absurd (List.erase_subset _ _ hi) hni
          · refine ⟨hbsub _ hi, ?_⟩
            rw [List.map_append]
            exact List.mem_append_right _ hi
        · intro wid heq
          rw [stepSyscall_eq hr hres] at heq
          simp at heq
  · -- system call
    obtain ⟨hs2, ht2, hcl2⟩ := resume_sys hres
    subst hs2
    obtain ⟨hmem, hnotp, hiff⟩ := head_facts hInv hr
    cases c with
    | killTask wid =>
        simp only [handleSys] at hh
        split_ifs at hh with hw
        · injection hh with hh'
          subst hh'
          exact ⟨fun i hi hni => absurd hi hni,
            fun i hni hi => absurd hi hni, fun _ _ => rfl⟩
        · injection hh with hh'
          subst hh'
          exact ⟨fun i hi hni => absurd hi hni,
            fun i hni hi => absurd hi hni, fun _ _ => rfl⟩
    | waitForTask wid =>
        simp only [handleSys] at hh
        split_ifs at hh with hw
        · injection hh with hh'
          subst hh'
          refine ⟨?_, ?_, ?_⟩
          · intro i hi hni
            have hit : i = t2.tid := by
              by_contra hne
              exact hni ((List.Nodup.mem_erase_iff hInv.2.1).mpr ⟨hne, hi⟩)
            subst hit
            refine ⟨t, rest, hr, ht2.symm ▸ rfl, Or.inl ?_⟩
            have hperm := exitIds_park_exit { s with ready := rest } wid
              { t2 with sendval := Val.bool true }
            exact hperm.mem_iff.mpr (List.mem_cons_self _ _)
          · intro i hni hi
            exact absurd (List.erase_subset _ _ hi) hni
          · intro wid2 heq
            rw [stepSyscall_eq hr hres] at heq
            simp at heq
        · injection hh with hh'
          subst hh'
          exact ⟨fun i hi hni => absurd hi hni,
            fun i hni hi => absurd hi hni, fun _ _ => rfl⟩
    | waitForTime secs =>
        simp only [handleSys] at hh
        split_ifs at hh with hsec
        injection hh with hh'
        subst hh'
        exact ⟨fun i hi hni => absurd hi hni,
          fun i hni hi => absurd hi hni, fun _ _ => rfl⟩
    | readTask fd =>
        simp only [handleSys] at hh
        injection hh with hh'
        subst hh'
        exact ⟨fun i hi hni => absurd hi hni,
          fun i hni hi => absurd hi hni, fun _ _ => rfl⟩
    | writeTask fd =>
        simp only [handleSys] at hh
        injection hh with hh'
        subst hh'
        exact ⟨fun i hi hni => absurd hi hni,
          fun i hni hi => absurd hi hni, fun _ _ => rfl⟩

/-- C7 counterexample: the claim as stated is false on two counts,
exhibited in one four-step run of `c7trace`.  Task 1 issues `AwaitExit`
on the live task 0: `wait_for_exit` pops task 1 itself from the registry,
so id 1 is absent from the registry while its task is parked in an
exit-waiter list, neither completed nor killed (its generator is not
closed).  Task 3 kills task 2, which is parked in the reactor waiting
set: `KillTask.handle` closes the target's generator but never removes it
from the registry, so id 2 is still registered after the kill. -/
theorem c7_counterexample :
    ∃ s4, runInputs c7trace
        [.step (envAt 0), .step (envAt 0), .step (envAt 0), .step (envAt 0)] =
          .ok s4 ∧
      (1 ∉ s4.taskmap ∧ ∃ w ∈ exitTasks s4, w.tid = 1 ∧ w.closed = false) ∧
      (2 ∈ s4.taskmap ∧ ∃ u ∈ ioTasks s4, u.tid = 2 ∧ u.closed = true) :=
  ⟨_, rfl, by decide, by decide⟩

/-- C7 witness: the lifecycle theorem applied to the concrete step in
which task 3 of `c7w` completes. -/
theorem c7_registry_lifecycle_witness :
    (∀ i, i ∈ c7w.taskmap → i ∉ c7wAfter.taskmap →
      ∃ t rest, c7w.ready = t :: rest ∧ t.tid = i ∧
        (i ∈ exitIds c7wAfter ∨ i ∉ placedIds c7wAfter)) ∧
    (∀ i, i ∉ c7w.taskmap → i ∈ c7wAfter.taskmap →
      i ∈ exitIds c7w ∧ i ∈ c7wAfter.ready.map Task.tid) ∧
    (∀ wid, stepSyscall (envAt 0) c7w = some (.killTask wid) →
      c7wAfter.taskmap = c7w.taskmap) :=
  @c7_registry_lifecycle (envAt 0) c7w c7wAfter (by decide) rfl

/-- C10: self-join permanence.  When a task at the head of the ready
queue yields `WaitForTask` with its own id (which is registered), the
handler removes the task from the registry and appends it to the
exit-waiter list keyed by its own id, does not re-queue it, and in every
subsequent run of the scheduler — any interleaving of dispatch steps and
new submissions — the task remains parked there and never reappears in
the ready queue, hence never resumes. -/
theorem c10_self_join_parks_forever {env : Env} {s : Sched} {t : Task}
    {rest : List Task} {r : List Action}
    (hr : s.ready = t :: rest)
    (hb : t.body = .script (.yieldSys (.waitForTask t.tid) :: r))
    (hc : t.closed = false) (hInv : InvP s) :
    ∃ s1, dispatchStep env s = .ok s1 ∧
      t.tid ∉ s1.taskmap ∧
      (∃ ts, assoc t.tid s1.exit_waiting = some ts ∧ t.tid ∈ ts.map Task.tid) ∧
      SelfParked s1 t.tid ∧
      ∀ ins s2, runInputs s1 ins = .ok s2 →
        t.tid ∉ s2.ready.map Task.tid ∧ SelfParked s2 t.tid := by
  obtain ⟨hmem, hnotp, hiff⟩ := head_facts hInv hr
  have hfresh : t.tid < s.nextId := hInv.2.2.2.2 t.tid (by
    rw [placedIds_cons hr]
    exact List.mem_cons_self _ _)
  obtain ⟨i, b0, v, cl⟩ := t
  dsimp only at hb hc hmem hnotp hiff hfresh ⊢
  subst hb
  subst hc
  have hstep : dispatchStep env s = handleSys env (.waitForTask i)
      { s with ready := rest }
      { tid := i, body := .script r, sendval := v, closed := false } := by
    unfold dispatchStep
    rw [hr]
    rfl
  have hstep2 : dispatchStep env s = .ok { s with
      ready := rest,
      taskmap := s.taskmap.erase i,
      exit_waiting := bucketAdd i
        { tid := i, body := .script r, sendval := Val.bool true, closed := false }
        s.exit_waiting } := by
    rw [hstep]
    simp only [handleSys]
    rw [if_pos hmem]
  have hni : i ∉ s.taskmap.erase i := fun hx =>
    ((List.Nodup.mem_erase_iff hInv.2.1).mp hx).1 rfl
  have hbucket : assoc i (bucketAdd i
      { tid := i, body := Body.script r, sendval := Val.bool true, closed := false }
      s.exit_waiting) = some ((assoc i s.exit_waiting).getD [] ++
        [{ tid := i, body := Body.script r, sendval := Val.bool true,
           closed := false }]) :=
    assoc_bucketAdd_self _ _ _
  have hparked : SelfParked { s with
      ready := rest,
      taskmap := s.taskmap.erase i,
      exit_waiting := bucketAdd i
        { tid := i, body := .script r, sendval := Val.bool true, closed := false }
        s.exit_waiting } i := by
    refine ⟨hni, ?_, ?_, ?_, hfresh⟩
    · intro u hu hut
      apply hnotp
      rw [placedIds_def]
      apply List.mem_append_left
      exact hut ▸ List.mem_map_of_mem Task.tid hu
    · rw [hbucket]
      simp
    · intro p hp hpx u hu hut
      rcases mem_bucketAdd hp with hm | ⟨q, hq, hqk, hEq⟩ | hEq
      · apply hnotp
        rw [placedIds_def]
        apply List.mem_append_right
        exact hut ▸ List.mem_map_of_mem Task.tid
          (mem_exitTasks_of_mem_bucket hm hu)
      · exact hpx (by rw [hEq, hqk])
      · exact hpx (by rw [hEq])
  refine ⟨_, hstep2, hni, ⟨_, hbucket, by simp⟩, hparked, ?_⟩
  intro ins s2 hrun
  have hp2 := selfParked_run ins hparked hrun
  refine ⟨?_, hp2⟩
  intro hx
  obtain ⟨u, hu, hut⟩ := List.mem_map.mp hx
  refine hp2.2.1 u ?_ hut
  unfold liveTasks
  exact List.mem_append_left _ (List.mem_append_left _ hu)

/-- C10 witness: the self-join theorem applied to `c10w`, whose only
task joins itself. -/
theorem c10_self_join_parks_forever_witness :
    ∃ s1, dispatchStep (envAt 0) c10w = .ok s1 ∧
      0 ∉ s1.taskmap ∧
      (∃ ts, assoc 0 s1.exit_waiting = some ts ∧ 0 ∈ ts.map Task.tid) ∧
      SelfParked s1 0 ∧
      ∀ ins s2, runInputs s1 ins = .ok s2 →
        0 ∉ s2.ready.map Task.tid ∧ SelfParked s2 0 :=
  @c10_self_join_parks_forever (envAt 0) c10w
    { tid := 0, body := .script [.yieldSys (.waitForTask 0)], sendval := .none,
      closed := false }
    [] [] rfl rfl rfl (by decide)

end Corun
